import Mathlib

/-!
Verification of the todo.txt parsing/filtering/suggestion engine
(`todo_parser.py`, `todo_manager.py`) against its natural-language
specification.

Modelling conventions (shallow embedding):
* one text line is a `String` (a `List Char` underneath); a file is a
  `List String` of its raw lines;
* Python `str.strip` / the regex classes `\s`, `\w`, `\d` are modelled over
  the ASCII range (`pyWs`, `isWordChar`, `Char.isDigit`), matching the
  format's character set;
* each regular expression of the source is compiled by hand into a scanner
  over `List Char` with the same leftmost-match and backtracking behaviour;
* scanners that skip a matched region recurse on a fuel argument equal to
  the input length, keeping every definition structurally recursive and
  kernel-evaluable.
-/

/-- Python whitespace (`str.strip`, regex `\s`) on the ASCII range. -/
def pyWs (c : Char) : Bool :=
  c == ' ' || c == '\t' || c == '\n' || c == '\x0d' || c == '\x0b' || c == '\x0c'

/-- Regex `\w` on the ASCII range: letters, digits, underscore. -/
def isWordChar (c : Char) : Bool :=
  c.isAlphanum || c == '_'

/-- Python `str.strip()`: drop leading and trailing whitespace. -/
def pyStrip (cs : List Char) : List Char :=
  ((cs.dropWhile pyWs).reverse.dropWhile pyWs).reverse

/-- `pat` is a leading segment of `s` (Python `str.startswith`). -/
def startsWithL : List Char → List Char → Bool
  | [], _ => true
  | _ :: _, [] => false
  | p :: ps, c :: cs => p == c && startsWithL ps cs

/-- `pat` occurs as a contiguous segment of `s` (Python `in`). -/
def hasSub (pat : List Char) : List Char → Bool
  | [] => startsWithL pat []
  | c :: cs => startsWithL pat (c :: cs) || hasSub pat cs

/-- `afterLit key cs`: the remainder of `cs` after the literal `key`, when
`key` is a leading segment of `cs`. -/
def afterLit : List Char → List Char → Option (List Char)
  | [], cs => some cs
  | _ :: _, [] => none
  | k :: ks, c :: cs => if k == c then afterLit ks cs else none

/-- Greedy `\w+` starting at the already-seen word character `c`: the full
word, its last character, and the remainder. -/
def grabWord : Char → List Char → (List Char × Char × List Char)
  | c, [] => ([c], c, [])
  | c, d :: ds =>
    if isWordChar d then
      let r := grabWord d ds
      (c :: r.1, r.2.1, r.2.2)
    else ([c], c, d :: ds)

/-- The regex `\d{4}-\d{2}-\d{2}` at the head of the input: the ten matched
characters and the remainder. -/
def dateChars : List Char → Option (List Char × List Char)
  | a :: b :: c :: d :: s1 :: e :: f :: s2 :: g :: h :: rest =>
    if a.isDigit && b.isDigit && c.isDigit && d.isDigit && s1 == '-' &&
       e.isDigit && f.isDigit && s2 == '-' && g.isDigit && h.isDigit then
      some ([a, b, c, d, s1, e, f, s2, g, h], rest)
    else none
  | _ => none

/-- `d` is exactly a well-formed `\d{4}-\d{2}-\d{2}` date. -/
def isDate10 : List Char → Bool
  | [a, b, c, d, s1, e, f, s2, g, h] =>
    a.isDigit && b.isDigit && c.isDigit && d.isDigit && s1 == '-' &&
    e.isDigit && f.isDigit && s2 == '-' && g.isDigit && h.isDigit
  | _ => false

/-- `re.findall` for the marker patterns `(?<!:)\+(\w+)` (with `excl` set:
lookbehind excluding a preceding colon) and `@(\w+)`: scan left to right,
capture each group, continue after each match.  `prev` is the character
before the scan position, `none` at the start of the line; fuel is the
input length. -/
def scanMarks (excl : Bool) (mark : Char) : Nat → Option Char → List Char → List (List Char)
  | 0, _, _ => []
  | _ + 1, _, [] => []
  | fuel + 1, prev, c :: cs =>
    if c == mark && (!excl || !(prev == some ':')) then
      match cs with
      | [] => []
      | d :: ds =>
        if isWordChar d then
          let g := grabWord d ds
          g.1 :: scanMarks excl mark fuel (some g.2.1) g.2.2
        else scanMarks excl mark fuel (some c) cs
    else scanMarks excl mark fuel (some c) cs

/-- `re.findall(r'(?<!:)\+(\w+)', line)` — source line 51. -/
def findProjects (cs : List Char) : List String :=
  (scanMarks true '+' cs.length none cs).map (fun w => String.mk w)

/-- `re.findall(r'@(\w+)', line)` — source line 54. -/
def findContexts (cs : List Char) : List String :=
  (scanMarks false '@' cs.length none cs).map (fun w => String.mk w)

/-- `re.search(key + r'(\d{4}-\d{2}-\d{2})', line)`: the captured date of
the leftmost occurrence. -/
def searchTagDate (key : List Char) : List Char → Option (List Char)
  | [] => none
  | c :: cs =>
    match afterLit key (c :: cs) with
    | some r =>
      match dateChars r with
      | some p => some p.1
      | none => searchTagDate key cs
    | none => searchTagDate key cs

/-- The value part `\+?\w+` of a recurrence tag at the head of the input:
the captured value and the remainder (with the regex backtracking on `\+?`
when no word character follows the plus). -/
def recValSplit : List Char → Option (List Char × List Char)
  | [] => none
  | c :: [] =>
    if c == '+' then none
    else if isWordChar c then some ([c], []) else none
  | c :: d :: ds =>
    if c == '+' then
      if isWordChar d then some (c :: (grabWord d ds).1, (grabWord d ds).2.2) else none
    else if isWordChar c then
      some ((grabWord c (d :: ds)).1, (grabWord c (d :: ds)).2.2)
    else none

/-- `re.search(r'rec:(\+?\w+)', line)` — source line 67. -/
def searchRec : List Char → Option (List Char)
  | [] => none
  | c :: cs =>
    match afterLit ('r' :: 'e' :: 'c' :: ':' :: []) (c :: cs) with
    | some r =>
      match recValSplit r with
      | some p => some p.1
      | none => searchRec cs
    | none => searchRec cs

/-- `re.match(r'^x\s+(\d{4}-\d{2}-\d{2})(?:\s+(\d{4}-\d{2}-\d{2}))?', line)`
— source line 37: the completion date and the optional creation date. -/
def xDatesMatch (cs : List Char) : Option (List Char × Option (List Char)) :=
  match cs with
  | [] => none
  | c :: rest =>
    if c == 'x' then
      if (rest.takeWhile pyWs).isEmpty then none
      else
        match dateChars (rest.dropWhile pyWs) with
        | none => none
        | some p =>
          if (p.2.takeWhile pyWs).isEmpty then some (p.1, none)
          else
            match dateChars (p.2.dropWhile pyWs) with
            | none => some (p.1, none)
            | some q => some (p.1, some q.1)
    else none

/-- `re.match(r'^(\([A-Z]\))', line)` — source line 46: the priority letter. -/
def prioMatch : List Char → Option Char
  | a :: b :: c :: _ =>
    if a == '(' && decide (65 ≤ b.toNat) && decide (b.toNat ≤ 90) && c == ')' then
      some b
    else none
  | _ => none

/-- `re.sub(r'^x\s+\d{4}-\d{2}-\d{2}(?:\s+\d{4}-\d{2}-\d{2})?\s*', '', line)`
— source line 76: strip the completion marker and its dates. -/
def dropXHead (cs : List Char) : List Char :=
  match cs with
  | [] => []
  | c :: rest =>
    if c == 'x' then
      if (rest.takeWhile pyWs).isEmpty then cs
      else
        match dateChars (rest.dropWhile pyWs) with
        | none => cs
        | some p =>
          let r2 :=
            if (p.2.takeWhile pyWs).isEmpty then p.2
            else
              match dateChars (p.2.dropWhile pyWs) with
              | none => p.2
              | some q => q.2
          r2.dropWhile pyWs
    else cs

/-- `re.sub(r'^\([A-Z]\)\s*', '', clean)` — source line 78. -/
def dropPrioHead (cs : List Char) : List Char :=
  match cs with
  | a :: b :: c :: rest =>
    if a == '(' && decide (65 ≤ b.toNat) && decide (b.toNat ≤ 90) && c == ')' then
      rest.dropWhile pyWs
    else cs
  | _ => cs

/-- One match attempt of `\s+KEY\d{4}-\d{2}-\d{2}` at a whitespace position:
the remainder after the matched region. -/
def tagDateAfterWs (key : List Char) (cs : List Char) : Option (List Char) :=
  (afterLit key (cs.dropWhile pyWs)).bind (fun r => (dateChars r).map (fun p => p.2))

/-- `re.sub(r'\s+KEY\d{4}-\d{2}-\d{2}', '', clean)` — source lines 80-81:
remove every whitespace-preceded, well-formed dated tag. -/
def subTagDate (key : List Char) : Nat → List Char → List Char
  | 0, cs => cs
  | _ + 1, [] => []
  | fuel + 1, c :: cs =>
    if pyWs c then
      match tagDateAfterWs key (c :: cs) with
      | some rest => subTagDate key fuel rest
      | none => c :: subTagDate key fuel cs
    else c :: subTagDate key fuel cs

/-- One match attempt of `\s+rec:\+?\w+` at a whitespace position. -/
def recAfterWs (cs : List Char) : Option (List Char) :=
  (afterLit ('r' :: 'e' :: 'c' :: ':' :: []) (cs.dropWhile pyWs)).bind
    (fun r => (recValSplit r).map (fun p => p.2))

/-- `re.sub(r'\s+rec:\+?\w+', '', clean)` — source line 82. -/
def subRecTag : Nat → List Char → List Char
  | 0, cs => cs
  | _ + 1, [] => []
  | fuel + 1, c :: cs =>
    if pyWs c then
      match recAfterWs (c :: cs) with
      | some rest => subRecTag fuel rest
      | none => c :: subRecTag fuel cs
    else c :: subRecTag fuel cs

/-- `TodoParser._clean_description` — source lines 73-83. -/
def clean_description (cs : List Char) : List Char :=
  let s1 := dropXHead cs
  let s2 := dropPrioHead s1
  let s3 := subTagDate ('d' :: 'u' :: 'e' :: ':' :: []) s2.length s2
  let s4 := subTagDate ('t' :: ':' :: []) s3.length s3
  let s5 := subRecTag s4.length s4
  pyStrip s5

/-- The Task Record of the data model: one parsed line of the todo file. -/
structure TaskRec where
  raw : String
  completed : Bool
  priority : Option Char
  projects : List String
  contexts : List String
  due_date : Option String
  threshold_date : Option String
  recurrence : Option String
  description : String
  creation_date : Option String
  completion_date : Option String
  line_number : Option Nat
deriving DecidableEq

/-- `TodoParser.parse_line` — source lines 14-71.  Note the source's
indentation: the project extraction of line 51 sits inside the
`if priority_match:` block of the active-task branch, so `projects` keeps
its initial `[]` unless the line is active and carries a priority marker. -/
def parse_line (line : String) : Option TaskRec :=
  let cs := pyStrip line.data
  if cs.isEmpty then none
  else
    let completed := startsWithL ('x' :: ' ' :: []) cs
    let xdates := if completed then xDatesMatch cs else none
    let priority := if completed then none else prioMatch cs
    let projects :=
      if completed then []
      else
        match prioMatch cs with
        | some _ => findProjects cs
        | none => []
    some (TaskRec.mk (String.mk cs) completed priority projects (findContexts cs)
      ((searchTagDate ('d' :: 'u' :: 'e' :: ':' :: []) cs).map String.mk)
      ((searchTagDate ('t' :: ':' :: []) cs).map String.mk)
      ((searchRec cs).map String.mk)
      (String.mk (clean_description cs))
      (xdates.bind (fun p => p.2.map String.mk))
      (xdates.map (fun p => String.mk p.1))
      none)

/-- The task with its load-time line number. -/
def withLine (t : TaskRec) (n : Nat) : TaskRec :=
  TaskRec.mk t.raw t.completed t.priority t.projects t.contexts t.due_date
    t.threshold_date t.recurrence t.description t.creation_date
    t.completion_date (some n)

/-- The enumeration loop of `load_all_tasks` — source lines 96-102. -/
def loadFrom : Nat → List String → List TaskRec
  | _, [] => []
  | i, l :: ls =>
    match parse_line l with
    | some t => withLine t (i + 1) :: loadFrom (i + 1) ls
    | none => loadFrom (i + 1) ls

/-- `TodoParser.load_all_tasks` on the raw line list of an existing,
readable file — source lines 96-102. -/
def load_all_tasks (lines : List String) : List TaskRec :=
  loadFrom 0 lines

/-- Python truthiness of the `due_date` field (`None` and `""` are falsy). -/
def dueTruthy (t : TaskRec) : Bool :=
  match t.due_date with
  | some d => !d.isEmpty
  | none => false

/-- The due-date component of the sort key — source lines 157-161: the due
date string when truthy, else the far-future string. -/
def dueKeyL (t : TaskRec) : List Char :=
  match t.due_date with
  | some d => if d.data.isEmpty then "zzzz-12-31".data else d.data
  | none => "zzzz-12-31".data

/-- The priority component of the sort key — source lines 163-167:
`ord(priority) - ord('A') + 1`, `999` when absent. -/
def prioKey (t : TaskRec) : Int :=
  match t.priority with
  | some c => (c.toNat : Int) - 65 + 1
  | none => 999

/-- The line-number component of the sort key — source line 170:
`task.get('line_number', 999)`. -/
def lineKey (t : TaskRec) : Nat :=
  t.line_number.getD 999

/-- Python string comparison: lexicographic by code point. -/
def cmpCh : List Char → List Char → Ordering
  | [], [] => Ordering.eq
  | [], _ :: _ => Ordering.lt
  | _ :: _, [] => Ordering.gt
  | a :: as_, b :: bs =>
    if a.toNat < b.toNat then Ordering.lt
    else if b.toNat < a.toNat then Ordering.gt
    else cmpCh as_ bs

/-- Comparison of two integers as an `Ordering`. -/
def cmpInt (a b : Int) : Ordering :=
  if a < b then Ordering.lt else if b < a then Ordering.gt else Ordering.eq

/-- Comparison of two naturals as an `Ordering`. -/
def cmpNat (a b : Nat) : Ordering :=
  if a < b then Ordering.lt else if b < a then Ordering.gt else Ordering.eq

/-- Lexicographic comparison of the composite sort key
`(due_sort, priority_sort, line_sort)` — source line 172. -/
def cmpKey (x y : TaskRec) : Ordering :=
  match cmpCh (dueKeyL x) (dueKeyL y) with
  | Ordering.lt => Ordering.lt
  | Ordering.gt => Ordering.gt
  | Ordering.eq =>
    match cmpInt (prioKey x) (prioKey y) with
    | Ordering.lt => Ordering.lt
    | Ordering.gt => Ordering.gt
    | Ordering.eq => cmpNat (lineKey x) (lineKey y)

/-- The non-strict order on tasks induced by the composite sort key. -/
def taskLe (x y : TaskRec) : Prop :=
  cmpKey x y ≠ Ordering.gt

instance : DecidableRel taskLe := fun x y =>
  inferInstanceAs (Decidable (cmpKey x y ≠ Ordering.gt))

/-- `TodoParser.sort_tasks` — source lines 154-174: `sorted` by the
composite key (a stable comparison sort). -/
def sort_tasks (ts : List TaskRec) : List TaskRec :=
  List.insertionSort taskLe ts

/-- The options object of `filter_tasks` — source lines 104-110 (a `None`
list argument becomes `[]`, source lines 112-115). -/
structure FilterOpts where
  exclude_contexts : List String
  include_contexts : List String
  exclude_projects : List String
  include_projects : List String
  only_active : Bool
  has_due_date : Option Bool
deriving DecidableEq

/-- The per-task predicate of the `filter_tasks` loop — source lines
120-150: the conjunction of the negated `continue` conditions. -/
def keepTask (o : FilterOpts) (t : TaskRec) : Bool :=
  !(o.only_active && t.completed) &&
  !(!o.only_active && !t.completed) &&
  !(!o.exclude_contexts.isEmpty && o.exclude_contexts.any (fun c => t.contexts.contains c)) &&
  !(!o.include_contexts.isEmpty && !(o.include_contexts.any (fun c => t.contexts.contains c))) &&
  !(!o.exclude_projects.isEmpty && o.exclude_projects.any (fun p => t.projects.contains p)) &&
  !(!o.include_projects.isEmpty && !(o.include_projects.any (fun p => t.projects.contains p))) &&
  (match o.has_due_date with
   | none => true
   | some b => if b then dueTruthy t else !dueTruthy t)

/-- `TodoParser.filter_tasks` — source lines 104-152: load, filter in one
pass, then sort. -/
def filter_tasks (lines : List String) (o : FilterOpts) : List TaskRec :=
  sort_tasks ((load_all_tasks lines).filter (keepTask o))

/-- The result mapping of `TodoManager.get_inbox_tasks` — source lines
187-191. -/
structure InboxResult where
  inbox_tasks : List TaskRec
  count : Nat
  needs_processing : Bool

/-- `TodoManager.get_inbox_tasks` — source lines 183-191. -/
def get_inbox_tasks (lines : List String) : InboxResult :=
  let ts := filter_tasks lines (FilterOpts.mk [] [] [] ["in"] true none)
  InboxResult.mk ts ts.length (decide (0 < ts.length))

/-- The `ENERGY_CONTEXTS` mapping — source lines 56-60 (`none` models a key
that is not in the dict, covering the falsy empty string as well). -/
def energyCtxs (e : String) : Option (List String) :=
  if e == "high" then some ["focus", "creative", "complex", "brainstorm", "learn"]
  else if e == "medium" then some ["medium"]
  else if e == "low" then some ["routine", "admin", "communicate", "organize", "review"]
  else none

/-- The `TIME_CONTEXTS` mapping — source lines 62-66. -/
def timeCtxs (cat : String) : List String :=
  if cat == "quick" then ["quick", "call", "email"]
  else if cat == "medium" then ["medium", "meeting"]
  else ["deep", "project"]

/-- The time classification — source lines 91-97. -/
def timeCategory (m : Int) : String :=
  if m ≤ 15 then "quick" else if m ≤ 60 then "medium" else "long"

/-- The filters of the base candidate set — source lines 68-70: exclude the
`waiting` context, include `context_filter` when truthy. -/
def baseFilters (ctx : Option String) : FilterOpts :=
  match ctx with
  | some c =>
    if c.isEmpty then FilterOpts.mk ["waiting"] [] [] [] true none
    else FilterOpts.mk ["waiting"] [c] [] [] true none
  | none => FilterOpts.mk ["waiting"] [] [] [] true none

/-- The base candidate set of `suggest_next_task` — source line 72. -/
def baseTasks (lines : List String) (ctx : Option String) : List TaskRec :=
  filter_tasks lines (baseFilters ctx)

/-- The energy narrowing step — source lines 81-87: replace the candidate
set only when the narrowed set is non-empty, recording the reason. -/
def energyNarrow : Option String → List TaskRec → List TaskRec × List String
  | none, cand => (cand, [])
  | some e, cand =>
    match energyCtxs e with
    | none => (cand, [])
    | some ecs =>
      let et := cand.filter (fun t => t.contexts.any (fun c => ecs.contains c))
      if et.isEmpty then (cand, [])
      else (et, ["filtered for " ++ e ++ " energy tasks"])

/-- The time narrowing step — source lines 90-104 (`0` minutes is falsy and
skips the step). -/
def timeNarrow : Option Int → List TaskRec → List TaskRec × List String
  | none, cand => (cand, [])
  | some m, cand =>
    if m == 0 then (cand, [])
    else
      let cat := timeCategory m
      let tt := cand.filter (fun t => t.contexts.any (fun c => (timeCtxs cat).contains c))
      if tt.isEmpty then (cand, [])
      else (tt, ["filtered for " ++ cat ++ " duration tasks"])

/-- The candidate set after both narrowing steps, before the final fallback
— the value of `candidate_tasks` at source line 106. -/
def narrowedTasks (lines : List String) (time : Option Int) (ctx energy : Option String) : List TaskRec :=
  (timeNarrow time (energyNarrow energy (baseTasks lines ctx)).1).1

/-- The result of `suggest_next_task`: either the error mapping or the
suggestion mapping — source lines 75 and 141-147.  `error "IndexError"`
models the `candidate_tasks[0]` crash of line 112 on an empty list. -/
inductive SuggestResult where
  | error (msg : String)
  | ok (suggested : TaskRec) (reasoning : String) (alternatives : List TaskRec)
      (total_available : Nat) (filtered_candidates : Nat)
deriving DecidableEq

/-- Whether a suggestion result is the error mapping. -/
def isErr : SuggestResult → Bool
  | SuggestResult.error _ => true
  | SuggestResult.ok _ _ _ _ _ => false

/-- Python `<=` on strings, for the due-date-versus-today comparison of
source line 119. -/
def strLePy (a b : String) : Bool :=
  !(cmpCh a.data b.data == Ordering.gt)

/-- The due-status note — source lines 117-122. -/
def dueReason (s : TaskRec) (today : String) : List String :=
  match s.due_date with
  | none => []
  | some d =>
    if d.isEmpty then []
    else if strLePy d today then ["Due today or overdue"]
    else ["Due " ++ d]

/-- The priority note — source lines 124-125. -/
def prioReason (s : TaskRec) : List String :=
  match s.priority with
  | some p => ["Priority " ++ String.mk [p]]
  | none => []

/-- The context-filter note — source lines 127-128. -/
def ctxReason (ctx : Option String) : List String :=
  match ctx with
  | some c => if c.isEmpty then [] else ["Matches context " ++ c]
  | none => []

/-- The time-available note — source lines 130-132. -/
def timeReason (time : Option Int) : List String :=
  match time with
  | some m => if m == 0 then [] else ["You have " ++ toString m ++ " minutes available"]
  | none => []

/-- `TodoManager.suggest_next_task` — source lines 49-147, with `today` the
current date string of `datetime.now()`. -/
def suggest_next_task (lines : List String) (today : String) (time : Option Int)
    (ctx energy : Option String) : SuggestResult :=
  let tasks := baseTasks lines ctx
  if tasks.isEmpty then SuggestResult.error "No available tasks found"
  else
    let en := energyNarrow energy tasks
    let tn := timeNarrow time en.1
    let cf := if tn.1.isEmpty then tasks else tn.1
    let fr := if tn.1.isEmpty then
        en.2 ++ tn.2 ++ ["no tasks matched filters, showing all available"]
      else en.2 ++ tn.2
    match cf with
    | [] => SuggestResult.error "IndexError"
    | s :: rest =>
      let reasons0 := dueReason s today ++ prioReason s ++ ctxReason ctx ++ timeReason time ++ fr
      let reasons := if reasons0.isEmpty then ["Next in priority order"] else reasons0
      SuggestResult.ok s (String.intercalate "; " reasons) (rest.take 3) tasks.length cf.length

/-- What one load attempt of the todo file can see: a missing file, a file
whose read raises, or the raw line list — the cases of source lines 85-94. -/
inductive FileRead where
  | missing
  | failure (msg : String)
  | content (lines : List String)

/-- `TodoParser.load_all_tasks` including its file handling — source lines
85-102: a missing file yields `[]`, a failed read re-raises with the
underlying cause appended to the message, a successful read parses. -/
def load_all_tasks_from (f : FileRead) : Except String (List TaskRec) :=
  match f with
  | FileRead.missing => Except.ok []
  | FileRead.failure e => Except.error ("Error reading todo file: " ++ e)
  | FileRead.content ls => Except.ok (load_all_tasks ls)

/-- One token of a well-formed todo line: a plain word, or one of the three
recognized dated/valued metadata tags. -/
inductive Tok where
  | word (w : List Char)
  | due (d : List Char)
  | thr (d : List Char)
  | recur (v : List Char)

/-- The characters a token renders to. -/
def tokChars : Tok → List Char
  | Tok.word w => w
  | Tok.due d => 'd' :: 'u' :: 'e' :: ':' :: d
  | Tok.thr d => 't' :: ':' :: d
  | Tok.recur v => 'r' :: 'e' :: 'c' :: ':' :: v

/-- A plain word: non-empty, no whitespace, no colon. -/
def wfWord (w : List Char) : Bool :=
  !w.isEmpty && w.all (fun c => !pyWs c && !(c == ':'))

/-- A well-formed recurrence value: an optional plus and a non-empty run of
word characters. -/
def wfRecVal : List Char → Bool
  | [] => false
  | c :: r =>
    if c == '+' then !r.isEmpty && r.all isWordChar
    else isWordChar c && r.all isWordChar

/-- A well-formed token. -/
def wfTok : Tok → Bool
  | Tok.word w => wfWord w
  | Tok.due d => isDate10 d
  | Tok.thr d => isDate10 d
  | Tok.recur v => wfRecVal v

/-- The rendering of the tokens after the first word: each preceded by one
space. -/
def renderTail : List Tok → List Char
  | [] => []
  | t :: ts => ' ' :: tokChars t ++ renderTail ts

/-- A line made of a leading word and further space-separated tokens. -/
def renderLine (w0 : List Char) (ts : List Tok) : List Char :=
  w0 ++ renderTail ts

/-- The due tokens. -/
def isDueTok : Tok → Bool
  | Tok.due _ => true
  | _ => false

/-- The threshold tokens. -/
def isThrTok : Tok → Bool
  | Tok.thr _ => true
  | _ => false

/-- The recurrence tokens. -/
def isRecTok : Tok → Bool
  | Tok.recur _ => true
  | _ => false

/-- The order the specification describes for the Sort Engine: ascending by
due-date sort key (Python string comparison), then by priority rank, then
by line number. -/
def claimOrd (x y : TaskRec) : Prop :=
  cmpCh (dueKeyL x) (dueKeyL y) = Ordering.lt ∨
  (dueKeyL x = dueKeyL y ∧
    (prioKey x < prioKey y ∨ (prioKey x = prioKey y ∧ lineKey x ≤ lineKey y)))

/-- The dated-tag pass with its canonical fuel. -/
def subTagF (key : List Char) (cs : List Char) : List Char :=
  subTagDate key cs.length cs

/-- The recurrence pass with its canonical fuel. -/
def subRecF (cs : List Char) : List Char :=
  subRecTag cs.length cs

/-- Two characters with the same code point are equal. -/
theorem char_toNat_inj {a b : Char} (h : a.toNat = b.toNat) : a = b := by
  unfold Char.toNat at h
  apply Char.ext
  exact UInt32.toNat.inj h

/-- `parse_line` yields no record exactly on blank (whitespace-only) lines. -/
theorem parse_line_none_iff (l : String) :
    parse_line l = none ↔ (pyStrip l.data).isEmpty = true := by
  unfold parse_line
  by_cases h : (pyStrip l.data).isEmpty <;> simp [h]

/-- The loop of `load_all_tasks` as a filterMap over the enumerated lines. -/
theorem loadFrom_eq (i : Nat) (ls : List String) :
    loadFrom i ls
      = (List.enumFrom i ls).filterMap
          (fun p => (parse_line p.2).map (fun t => withLine t (p.1 + 1))) := by
  induction ls generalizing i with
  | nil => rfl
  | cons l ls ih =>
    unfold loadFrom
    cases h : parse_line l with
    | none => simp [List.enumFrom, List.filterMap_cons, h, ih]
    | some t => simp [List.enumFrom, List.filterMap_cons, h, ih]

/-- The line numbers of the loaded records. -/
theorem loadFrom_map_line (i : Nat) (ls : List String) :
    (loadFrom i ls).map TaskRec.line_number
      = ((List.enumFrom i ls).filter (fun p => !(pyStrip p.2.data).isEmpty)).map
          (fun p => some (p.1 + 1)) := by
  induction ls generalizing i with
  | nil => rfl
  | cons l ls ih =>
    unfold loadFrom
    cases h : parse_line l with
    | none =>
      have hb : (pyStrip l.data).isEmpty = true := (parse_line_none_iff l).mp h
      simp [List.enumFrom, List.filter_cons, hb, ih]
    | some t =>
      have hb : (pyStrip l.data).isEmpty = false := by
        by_cases hc : (pyStrip l.data).isEmpty
        · exact absurd ((parse_line_none_iff l).mpr hc) (by simp [h])
        · simpa using hc
      simp [List.enumFrom, List.filter_cons, hb, ih, withLine]

/-- C6: `load_all_tasks` produces one Task Record per non-blank line, whose
`line_number` is the line's 1-based position in the full raw line list;
blank lines produce no record (`parse_line` returns nothing exactly on
blank lines) and their positions are left as gaps, never renumbered. -/
theorem c6_line_numbers (lines : List String) :
    load_all_tasks lines
        = lines.enum.filterMap
            (fun p => (parse_line p.2).map (fun t => withLine t (p.1 + 1))) ∧
    (load_all_tasks lines).map TaskRec.line_number
        = (lines.enum.filter (fun p => !(pyStrip p.2.data).isEmpty)).map
            (fun p => some (p.1 + 1)) ∧
    (∀ l : String, parse_line l = none ↔ (pyStrip l.data).isEmpty = true) := by
  refine ⟨?_, ?_, parse_line_none_iff⟩
  · exact loadFrom_eq 0 lines
  · exact loadFrom_map_line 0 lines

/-- C9: over the file-read model, `load_all_tasks` returns the empty
sequence (not an error) for a missing file, an error message carrying the
underlying cause for a failed read, and the parsed records of the raw line
list for a successful read. -/
theorem c9_load_error_model :
    load_all_tasks_from FileRead.missing = Except.ok [] ∧
    (∀ e, ∃ m, load_all_tasks_from (FileRead.failure e) = Except.error m ∧
      ∃ pre, m = pre ++ e) ∧
    (∀ ls, load_all_tasks_from (FileRead.content ls) = Except.ok (load_all_tasks ls)) := by
  refine ⟨rfl, fun e => ⟨"Error reading todo file: " ++ e, rfl, "Error reading todo file: ", rfl⟩,
    fun ls => rfl⟩

/-- C1 (code evaluation at the failing input): on the active, priority-free
line of the repository's own test `test_parse_waiting_context`, the code
leaves `projects` empty even though the line holds a `+development` token
(which the project regex by itself extracts); the same token on a line
with a priority marker is extracted.  The project extraction of source
line 51 only runs inside the priority branch. -/
theorem c1_projects_code_eval :
    (parse_line "finish code review for PR #123 +development @waiting").map TaskRec.projects
        = some [] ∧
    findProjects (pyStrip "finish code review for PR #123 +development @waiting".data)
        = ["development"] ∧
    (parse_line "(A) finish code review +development @waiting").map TaskRec.projects
        = some ["development"] := by
  exact ⟨rfl, rfl, rfl⟩

/-- C2 (code evaluation at the failing input): a file whose two non-blank
lines are both active and both carry a `+in` token, yet `get_inbox_tasks`
reports a count of 0, because the parser never populated `projects` for
priority-free lines. -/
theorem c2_inbox_code_eval :
    (get_inbox_tasks ["capture ideas +in", "buy milk +in"]).count = 0 ∧
    (load_all_tasks ["capture ideas +in", "buy milk +in"]).map TaskRec.completed
        = [false, false] ∧
    (load_all_tasks ["capture ideas +in", "buy milk +in"]).map
        (fun t => hasSub ('+' :: 'i' :: 'n' :: []) t.raw.data)
        = [true, true] := by
  exact ⟨rfl, rfl, rfl⟩

/-- C7 (counterexample): the trimmed line `x<TAB>a` begins with `x`
followed by a whitespace character, yet the code does not mark it
completed — `startswith('x ')` demands a space, not arbitrary whitespace. -/
theorem c7_completed_cex :
    (parse_line "x\ta").map TaskRec.completed = some false ∧
    pyStrip "x\ta".data = 'x' :: '\t' :: 'a' :: [] ∧
    pyWs '\t' = true := by
  exact ⟨rfl, rfl, rfl⟩

/-- C7 (amended): the `completed` field is true if and only if the trimmed
line begins with the two-character prefix `x` followed by a space. -/
theorem c7_completed_iff (line : String) (t : TaskRec) (h : parse_line line = some t) :
    t.completed = startsWithL ('x' :: ' ' :: []) (pyStrip line.data) := by
  unfold parse_line at h
  simp only [] at h
  split at h
  · exact Option.noConfusion h
  · injection h with h3
    rw [← h3]

/-- C7 witness: the amended statement evaluated on the line `x done`. -/
theorem c7_completed_wit :
    (parse_line "x done").map TaskRec.completed
      = some (startsWithL ('x' :: ' ' :: []) (pyStrip "x done".data)) := by
  cases h : parse_line "x done" with
  | none => exact absurd h (by decide)
  | some t =>
    simp only [Option.map_some]
    exact congrArg some (c7_completed_iff "x done" t h)

/-- A list compares equal to itself. -/
theorem cmpCh_self (a : List Char) : cmpCh a a = Ordering.eq := by
  induction a with
  | nil => rfl
  | cons c cs ih => simp [cmpCh, ih]

/-- `cmpCh` reports equality only between equal lists. -/
theorem cmpCh_eq (a : List Char) : ∀ b, cmpCh a b = Ordering.eq → a = b := by
  induction a with
  | nil =>
    intro b h
    cases b with
    | nil => rfl
    | cons y ys => simp [cmpCh] at h
  | cons x xs ih =>
    intro b h
    cases b with
    | nil => simp [cmpCh] at h
    | cons y ys =>
      unfold cmpCh at h
      by_cases h1 : x.toNat < y.toNat
      · simp [h1] at h
      · by_cases h2 : y.toNat < x.toNat
        · simp [h1, h2] at h
        · simp only [h1, h2, if_false] at h
          have hx : x = y := char_toNat_inj (by omega)
          rw [hx, ih ys h]

/-- Swapping the arguments of `cmpCh` swaps the ordering. -/
theorem cmpCh_swap (a : List Char) : ∀ b, (cmpCh a b).swap = cmpCh b a := by
  induction a with
  | nil =>
    intro b
    cases b <;> rfl
  | cons x xs ih =>
    intro b
    cases b with
    | nil => rfl
    | cons y ys =>
      unfold cmpCh
      by_cases h1 : x.toNat < y.toNat
      · have h2 : ¬ y.toNat < x.toNat := by omega
        simp [h1, h2, Ordering.swap]
      · by_cases h2 : y.toNat < x.toNat
        · simp [h1, h2, Ordering.swap]
        · simp [h1, h2, ih ys]

/-- Strict `cmpCh` comparisons chain transitively. -/
theorem cmpCh_lt_trans (a : List Char) :
    ∀ b c, cmpCh a b = Ordering.lt → cmpCh b c = Ordering.lt → cmpCh a c = Ordering.lt := by
  induction a with
  | nil =>
    intro b c h1 h2
    cases b with
    | nil => exact h2
    | cons y ys =>
      cases c with
      | nil => simp [cmpCh] at h2
      | cons z zs => rfl
  | cons x xs ih =>
    intro b c h1 h2
    cases b with
    | nil => simp [cmpCh] at h1
    | cons y ys =>
      cases c with
      | nil => simp [cmpCh] at h2
      | cons z zs =>
        unfold cmpCh at h1 h2 ⊢
        by_cases hxy : x.toNat < y.toNat
        · by_cases hyz : y.toNat < z.toNat
          · simp [show x.toNat < z.toNat by omega]
          · by_cases hzy : z.toNat < y.toNat
            · simp [hyz, hzy] at h2
            · have : y.toNat = z.toNat := by omega
              simp [show x.toNat < z.toNat by omega]
        · by_cases hyx : y.toNat < x.toNat
          · simp [hxy, hyx] at h1
          · have hxyeq : x.toNat = y.toNat := by omega
            by_cases hyz : y.toNat < z.toNat
            · simp [show x.toNat < z.toNat by omega]
            · by_cases hzy : z.toNat < y.toNat
              · simp [hyz, hzy] at h2
              · simp only [hxy, hyx, if_false] at h1
                simp only [hyz, hzy, if_false] at h2
                have h3 : ¬ x.toNat < z.toNat := by omega
                have h4 : ¬ z.toNat < x.toNat := by omega
                simp only [h3, h4, if_false]
                exact ih ys zs h1 h2

/-- `cmpInt` as the order on integers. -/
theorem cmpInt_lt_iff (a b : Int) : cmpInt a b = Ordering.lt ↔ a < b := by
  unfold cmpInt
  split_ifs <;> simp_all <;> omega

/-- `cmpInt` reports equality only between equal integers. -/
theorem cmpInt_eq_iff (a b : Int) : cmpInt a b = Ordering.eq ↔ a = b := by
  unfold cmpInt
  split_ifs <;> simp_all <;> omega

/-- `cmpInt` reports `gt` exactly when the second argument is smaller. -/
theorem cmpInt_gt_iff (a b : Int) : cmpInt a b = Ordering.gt ↔ b < a := by
  unfold cmpInt
  split_ifs <;> simp_all <;> omega

/-- `cmpNat` avoids `gt` exactly on non-strict comparisons. -/
theorem cmpNat_ne_gt_iff (a b : Nat) : cmpNat a b ≠ Ordering.gt ↔ a ≤ b := by
  unfold cmpNat
  split_ifs <;> simp_all <;> omega


/-- The comparison-based order of `sort_tasks` is exactly the
specification's composite lexicographic order. -/
theorem taskLe_iff_claimOrd (x y : TaskRec) : taskLe x y ↔ claimOrd x y := by
  unfold taskLe claimOrd cmpKey
  cases h : cmpCh (dueKeyL x) (dueKeyL y) with
  | lt => simp
  | gt =>
    constructor
    · intro hc
      exact absurd rfl hc
    · rintro (hlt | ⟨hd, _⟩)
      · exact Ordering.noConfusion hlt
      · rw [hd, cmpCh_self] at h
        exact Ordering.noConfusion h
  | eq =>
    have hd : dueKeyL x = dueKeyL y := cmpCh_eq _ _ h
    cases h2 : cmpInt (prioKey x) (prioKey y) with
    | lt =>
      have hp := (cmpInt_lt_iff (prioKey x) (prioKey y)).mp h2
      simp [hd, hp]
    | gt =>
      have hp := (cmpInt_gt_iff (prioKey x) (prioKey y)).mp h2
      have h3 : ¬ (prioKey x < prioKey y) := by omega
      have h4 : prioKey x ≠ prioKey y := by omega
      simp [hd, h3, h4]
    | eq =>
      have hp := (cmpInt_eq_iff (prioKey x) (prioKey y)).mp h2
      rw [cmpNat_ne_gt_iff]
      constructor
      · intro hle
        exact Or.inr ⟨hd, Or.inr ⟨hp, hle⟩⟩
      · rintro (hlt | ⟨_, hp2 | ⟨_, hle⟩⟩)
        · exact Ordering.noConfusion hlt
        · exact absurd hp2 (by omega)
        · exact hle

/-- The composite order is total. -/
theorem claimOrd_total (x y : TaskRec) : claimOrd x y ∨ claimOrd y x := by
  unfold claimOrd
  cases h : cmpCh (dueKeyL x) (dueKeyL y) with
  | lt => exact Or.inl (Or.inl rfl)
  | gt =>
    have hs : cmpCh (dueKeyL y) (dueKeyL x) = Ordering.lt := by
      rw [← cmpCh_swap, h]
      rfl
    exact Or.inr (Or.inl hs)
  | eq =>
    have hd : dueKeyL x = dueKeyL y := cmpCh_eq _ _ h
    by_cases hp : prioKey x < prioKey y
    · exact Or.inl (Or.inr ⟨hd, Or.inl hp⟩)
    · by_cases hp2 : prioKey y < prioKey x
      · exact Or.inr (Or.inr ⟨hd.symm, Or.inl hp2⟩)
      · by_cases hl : lineKey x ≤ lineKey y
        · exact Or.inl (Or.inr ⟨hd, Or.inr ⟨by omega, hl⟩⟩)
        · exact Or.inr (Or.inr ⟨hd.symm, Or.inr ⟨by omega, by omega⟩⟩)

/-- The composite order is transitive. -/
theorem claimOrd_trans (x y z : TaskRec) :
    claimOrd x y → claimOrd y z → claimOrd x z := by
  unfold claimOrd
  rintro (h1 | ⟨hd1, hn1⟩) (h2 | ⟨hd2, hn2⟩)
  · exact Or.inl (cmpCh_lt_trans _ _ _ h1 h2)
  · rw [← hd2]
    exact Or.inl h1
  · rw [hd1]
    exact Or.inl h2
  · refine Or.inr ⟨hd1.trans hd2, ?_⟩
    rcases hn1 with hp1 | ⟨he1, hl1⟩ <;> rcases hn2 with hp2 | ⟨he2, hl2⟩
    · exact Or.inl (by omega)
    · exact Or.inl (by omega)
    · exact Or.inl (by omega)
    · exact Or.inr ⟨by omega, by omega⟩

instance : IsTotal TaskRec taskLe :=
  ⟨fun x y => by
    rcases claimOrd_total x y with h | h
    · exact Or.inl ((taskLe_iff_claimOrd x y).mpr h)
    · exact Or.inr ((taskLe_iff_claimOrd y x).mpr h)⟩

instance : IsTrans TaskRec taskLe :=
  ⟨fun x y z hxy hyz =>
    (taskLe_iff_claimOrd x z).mpr
      (claimOrd_trans x y z ((taskLe_iff_claimOrd x y).mp hxy)
        ((taskLe_iff_claimOrd y z).mp hyz))⟩

/-- C3: `sort_tasks` permutes its input into a sequence that ascends in the
composite key: strictly earlier due-date sort key (missing due dates take
the far-future key `zzzz-12-31`) comes first; on equal due keys the lower
priority rank (`A` = 1 … `Z` = 26, missing = 999) comes first; on equal
due and priority keys the lower original `line_number` comes first. -/
theorem c3_sort_order (ts : List TaskRec) :
    List.Perm (sort_tasks ts) ts ∧ List.Pairwise claimOrd (sort_tasks ts) := by
  constructor
  · exact List.perm_insertionSort taskLe ts
  · have h := List.sorted_insertionSort taskLe ts
    exact List.Pairwise.imp (fun hle => (taskLe_iff_claimOrd _ _).mp hle) h

/-- A non-nil list is not `isEmpty`. -/
theorem isEmpty_false_of_ne_nil {α : Type} {l : List α} (h : l ≠ []) : l.isEmpty = false := by
  cases l with
  | nil => exact absurd rfl h
  | cons a as => rfl

/-- `contains` on string lists decides membership (forward direction). -/
theorem mem_of_contains_true {l : List String} {a : String} (h : l.contains a = true) : a ∈ l := by
  simpa using h

/-- `contains` on string lists decides membership (negative direction). -/
theorem not_mem_of_not_contains {l : List String} {a : String} (h : ¬ l.contains a = true) :
    a ∉ l := by
  simpa using h

/-- Everything the filter predicate guarantees about a surviving task. -/
theorem of_keepTask (o : FilterOpts) (t : TaskRec) (h : keepTask o t = true) :
    (∀ c ∈ o.exclude_contexts, c ∉ t.contexts) ∧
    (o.include_contexts ≠ [] → ∃ c ∈ o.include_contexts, c ∈ t.contexts) ∧
    (∀ p ∈ o.exclude_projects, p ∉ t.projects) ∧
    (o.include_projects ≠ [] → ∃ p ∈ o.include_projects, p ∈ t.projects) ∧
    (o.only_active = true → t.completed = false) ∧
    (o.only_active = false → t.completed = true) ∧
    (∀ b, o.has_due_date = some b → dueTruthy t = b) := by
  unfold keepTask at h
  simp only [Bool.and_eq_true, Bool.not_eq_true'] at h
  obtain ⟨⟨⟨⟨⟨⟨h1, h2⟩, h3⟩, h4⟩, h5⟩, h6⟩, h7⟩ := h
  refine ⟨?_, ?_, ?_, ?_, ?_, ?_, ?_⟩
  · intro c hc hmem
    simp only [isEmpty_false_of_ne_nil (List.ne_nil_of_mem hc), Bool.not_false, Bool.true_and,
      List.any_eq_false] at h3
    exact not_mem_of_not_contains (h3 c hc) hmem
  · intro hne
    simp only [isEmpty_false_of_ne_nil hne, Bool.not_false, Bool.true_and, Bool.not_eq_false',
      List.any_eq_true] at h4
    obtain ⟨c, hc, hmem⟩ := h4
    exact ⟨c, hc, mem_of_contains_true hmem⟩
  · intro p hp hmem
    simp only [isEmpty_false_of_ne_nil (List.ne_nil_of_mem hp), Bool.not_false, Bool.true_and,
      List.any_eq_false] at h5
    exact not_mem_of_not_contains (h5 p hp) hmem
  · intro hne
    simp only [isEmpty_false_of_ne_nil hne, Bool.not_false, Bool.true_and, Bool.not_eq_false',
      List.any_eq_true] at h6
    obtain ⟨p, hp, hmem⟩ := h6
    exact ⟨p, hp, mem_of_contains_true hmem⟩
  · intro ha
    rw [ha] at h1
    simpa using h1
  · intro ha
    rw [ha] at h2
    simpa using h2
  · intro b hb
    rw [hb] at h7
    cases b with
    | true => simpa using h7
    | false => simpa using h7

/-- C4: every task that `filter_tasks` returns satisfies the conjunction of
all specified predicates — no excluded context, at least one included
context when that list is non-empty, symmetrically for projects, active
exactly when `only_active` is true, and due-date presence (Python
truthiness) matching `has_due_date` when set — and the returned sequence is
ascending in the composite sort order. -/
theorem c4_filter_spec (lines : List String) (o : FilterOpts) :
    (∀ t ∈ filter_tasks lines o,
      (∀ c ∈ o.exclude_contexts, c ∉ t.contexts) ∧
      (o.include_contexts ≠ [] → ∃ c ∈ o.include_contexts, c ∈ t.contexts) ∧
      (∀ p ∈ o.exclude_projects, p ∉ t.projects) ∧
      (o.include_projects ≠ [] → ∃ p ∈ o.include_projects, p ∈ t.projects) ∧
      (o.only_active = true → t.completed = false) ∧
      (o.only_active = false → t.completed = true) ∧
      (∀ b, o.has_due_date = some b → dueTruthy t = b)) ∧
    List.Pairwise claimOrd (filter_tasks lines o) := by
  constructor
  · intro t ht
    have hmem : t ∈ (load_all_tasks lines).filter (keepTask o) :=
      (List.perm_insertionSort taskLe _).subset ht
    exact of_keepTask o t (List.mem_filter.mp hmem).2
  · have h := List.sorted_insertionSort taskLe ((load_all_tasks lines).filter (keepTask o))
    exact List.Pairwise.imp (fun hle => (taskLe_iff_claimOrd _ _).mp hle) h

/-- The energy narrowing step never empties a non-empty candidate set. -/
theorem energyNarrow_ne (energy : Option String) (cand : List TaskRec) (h : cand ≠ []) :
    (energyNarrow energy cand).1 ≠ [] := by
  cases energy with
  | none => exact h
  | some e =>
    simp only [energyNarrow]
    cases hec : energyCtxs e with
    | none => exact h
    | some ecs =>
      simp only []
      by_cases he : (List.filter (fun t => t.contexts.any fun c => ecs.contains c) cand).isEmpty
      · rw [if_pos he]
        exact h
      · rw [if_neg he]
        intro hnil
        exact he (by simpa using congrArg List.isEmpty hnil)

/-- The time narrowing step never empties a non-empty candidate set. -/
theorem timeNarrow_ne (time : Option Int) (cand : List TaskRec) (h : cand ≠ []) :
    (timeNarrow time cand).1 ≠ [] := by
  cases time with
  | none => exact h
  | some m =>
    simp only [timeNarrow]
    by_cases hm : m == 0
    · rw [if_pos hm]
      exact h
    · rw [if_neg hm]
      by_cases he : (List.filter
          (fun t => t.contexts.any fun c => (timeCtxs (timeCategory m)).contains c) cand).isEmpty
      · rw [if_pos he]
        exact h
      · rw [if_neg he]
        intro hnil
        exact he (by simpa using congrArg List.isEmpty hnil)

/-- The narrowed candidate set stays non-empty whenever the base set is. -/
theorem narrowedTasks_ne (lines : List String) (time : Option Int) (ctx energy : Option String)
    (h : baseTasks lines ctx ≠ []) : narrowedTasks lines time ctx energy ≠ [] := by
  unfold narrowedTasks
  exact timeNarrow_ne time _ (energyNarrow_ne energy _ h)

/-- The shape of every non-error suggestion. -/
theorem suggest_ok_shape (lines : List String) (today : String) (time : Option Int)
    (ctx energy : Option String) (h : baseTasks lines ctx ≠ []) :
    ∃ s rest, narrowedTasks lines time ctx energy = s :: rest ∧
      ∃ r, suggest_next_task lines today time ctx energy =
        SuggestResult.ok s r (rest.take 3) (baseTasks lines ctx).length (s :: rest).length := by
  have hn : narrowedTasks lines time ctx energy ≠ [] := narrowedTasks_ne lines time ctx energy h
  cases hc : narrowedTasks lines time ctx energy with
  | nil => exact absurd hc hn
  | cons s rest =>
    refine ⟨s, rest, rfl, ?_⟩
    unfold suggest_next_task
    have hb : (baseTasks lines ctx).isEmpty = false := isEmpty_false_of_ne_nil h
    rw [if_neg (by simp [hb])]
    simp only []
    have ht : (timeNarrow time (energyNarrow energy (baseTasks lines ctx)).1).1 = s :: rest := hc
    rw [ht]
    simp only [if_neg (by simp : ¬ (((s :: rest : List TaskRec)).isEmpty = true))]
    exact ⟨_, rfl⟩

/-- C5: `suggest_next_task` yields the error-shaped result exactly when the
base candidate set (active tasks excluding the `waiting` context, restricted
to the context filter when truthy) is empty; with a non-empty base set it
yields a non-error suggestion even when a narrowing step matches nothing. -/
theorem c5_suggest_error_iff (lines : List String) (today : String) (time : Option Int)
    (ctx energy : Option String) :
    isErr (suggest_next_task lines today time ctx energy) = true ↔ baseTasks lines ctx = [] := by
  by_cases h : baseTasks lines ctx = []
  · simp only [h, iff_true]
    unfold suggest_next_task
    rw [if_pos (by rw [h]; rfl)]
    rfl
  · simp only [h, iff_false]
    obtain ⟨s, rest, _, r, heq⟩ := suggest_ok_shape lines today time ctx energy h
    rw [heq]
    simp [isErr]

/-- C10: whenever the base candidate set is non-empty, both narrowing steps
keep the candidate set non-empty (each replaces it only with a non-empty
narrowed set), so the final fallback branch (which would reset the
candidates and add the reason `no tasks matched filters, showing all
available`) is unreachable, and the result is a suggestion whose
`suggested_task` is the head of the narrowed candidate set with at most 3
alternatives. -/
theorem c10_narrowing_safe (lines : List String) (today : String) (time : Option Int)
    (ctx energy : Option String) (h : baseTasks lines ctx ≠ []) :
    (energyNarrow energy (baseTasks lines ctx)).1 ≠ [] ∧
    narrowedTasks lines time ctx energy ≠ [] ∧
    ∃ s rest, narrowedTasks lines time ctx energy = s :: rest ∧
      ∃ r, suggest_next_task lines today time ctx energy =
        SuggestResult.ok s r (rest.take 3) (baseTasks lines ctx).length (s :: rest).length ∧
      (rest.take 3).length ≤ 3 := by
  refine ⟨energyNarrow_ne energy _ h, narrowedTasks_ne lines time ctx energy h, ?_⟩
  obtain ⟨s, rest, hc, r, heq⟩ := suggest_ok_shape lines today time ctx energy h
  refine ⟨s, rest, hc, r, heq, ?_⟩
  calc (rest.take 3).length = min 3 rest.length := List.length_take 3 rest
    _ ≤ 3 := Nat.min_le_left 3 rest.length

/-- C10 witness: the narrowing-safety statement evaluated on a one-line file
with an energy and a time filter that match nothing. -/
theorem c10_narrowing_wit :
    (energyNarrow (some "high") (baseTasks ["pay bills @routine"] none)).1 ≠ [] ∧
    narrowedTasks ["pay bills @routine"] (some 20) none (some "high") ≠ [] ∧
    ∃ s rest, narrowedTasks ["pay bills @routine"] (some 20) none (some "high") = s :: rest ∧
      ∃ r, suggest_next_task ["pay bills @routine"] "2024-01-01" (some 20) none (some "high") =
        SuggestResult.ok s r (rest.take 3) (baseTasks ["pay bills @routine"] none).length
          (s :: rest).length ∧
      (rest.take 3).length ≤ 3 :=
  c10_narrowing_safe ["pay bills @routine"] "2024-01-01" (some 20) none (some "high") (by decide)


/-- A word character is not whitespace. -/
theorem word_not_ws {c : Char} (h : isWordChar c = true) : pyWs c = false := by
  cases hws : pyWs c
  · rfl
  · exfalso
    unfold pyWs at hws
    simp only [Bool.or_eq_true, beq_iff_eq] at hws
    rcases hws with ((((hc | hc) | hc) | hc) | hc) | hc <;> rw [hc] at h <;>
      exact absurd h (by decide)

/-- A word character is not a colon. -/
theorem word_not_colon {c : Char} (h : isWordChar c = true) : (c == ':') = false := by
  cases hc : c == ':'
  · rfl
  · rw [show c = ':' from beq_iff_eq.mp hc] at h
    exact absurd h (by decide)

/-- A digit is not whitespace. -/
theorem digit_not_ws {c : Char} (h : c.isDigit = true) : pyWs c = false := by
  cases hws : pyWs c
  · rfl
  · exfalso
    unfold pyWs at hws
    simp only [Bool.or_eq_true, beq_iff_eq] at hws
    rcases hws with ((((hc | hc) | hc) | hc) | hc) | hc <;> rw [hc] at h <;>
      exact absurd h (by decide)

/-- A digit is not a colon. -/
theorem digit_not_colon {c : Char} (h : c.isDigit = true) : (c == ':') = false := by
  cases hc : c == ':'
  · rfl
  · rw [show c = ':' from beq_iff_eq.mp hc] at h
    exact absurd h (by decide)

/-- The shape of a well-formed ten-character date. -/
theorem isDate10_parts {d : List Char} (h : isDate10 d = true) :
    ∃ a b c d4 e f g h2, d = a :: b :: c :: d4 :: '-' :: e :: f :: '-' :: g :: h2 :: [] ∧
      a.isDigit = true ∧ b.isDigit = true ∧ c.isDigit = true ∧ d4.isDigit = true ∧
      e.isDigit = true ∧ f.isDigit = true ∧ g.isDigit = true ∧ h2.isDigit = true := by
  rcases d with _ | ⟨a, _ | ⟨b, _ | ⟨c, _ | ⟨d4, _ | ⟨s1, _ | ⟨e, _ | ⟨f, _ | ⟨s2, _ | ⟨g,
    _ | ⟨h2, _ | ⟨x, t⟩⟩⟩⟩⟩⟩⟩⟩⟩⟩⟩ <;>
    simp only [isDate10, Bool.and_eq_true, beq_iff_eq] at h <;>
    try exact absurd h (by decide)
  obtain ⟨⟨⟨⟨⟨⟨⟨⟨⟨ha, hb⟩, hc⟩, hd4⟩, hs1⟩, he⟩, hf⟩, hs2⟩, hg⟩, hh2⟩ := h
  subst hs1
  subst hs2
  exact ⟨a, b, c, d4, e, f, g, h2, rfl, ha, hb, hc, hd4, he, hf, hg, hh2⟩

/-- The date matcher consumes exactly a well-formed date. -/
theorem dateChars_append {d : List Char} (h : isDate10 d = true) (r : List Char) :
    dateChars (d ++ r) = some (d, r) := by
  obtain ⟨a, b, c, d4, e, f, g, h2, hd, ha, hb, hc, hd4, he, hf, hg, hh2⟩ := isDate10_parts h
  subst hd
  simp [dateChars, ha, hb, hc, hd4, he, hf, hg, hh2]

/-- Every character of a well-formed date is neither whitespace nor colon. -/
theorem isDate10_chars {d : List Char} (h : isDate10 d = true) :
    ∀ c ∈ d, pyWs c = false ∧ (c == ':') = false := by
  obtain ⟨a, b, c, d4, e, f, g, h2, hd, ha, hb, hc, hd4, he, hf, hg, hh2⟩ := isDate10_parts h
  subst hd
  intro x hx
  simp only [List.mem_cons, List.not_mem_nil, or_false] at hx
  rcases hx with hx | hx | hx | hx | hx | hx | hx | hx | hx | hx <;> subst hx
  · exact ⟨digit_not_ws ha, digit_not_colon ha⟩
  · exact ⟨digit_not_ws hb, digit_not_colon hb⟩
  · exact ⟨digit_not_ws hc, digit_not_colon hc⟩
  · exact ⟨digit_not_ws hd4, digit_not_colon hd4⟩
  · exact ⟨rfl, rfl⟩
  · exact ⟨digit_not_ws he, digit_not_colon he⟩
  · exact ⟨digit_not_ws hf, digit_not_colon hf⟩
  · exact ⟨rfl, rfl⟩
  · exact ⟨digit_not_ws hg, digit_not_colon hg⟩
  · exact ⟨digit_not_ws hh2, digit_not_colon hh2⟩

/-- The pieces of a well-formed word. -/
theorem wfWord_parts {w : List Char} (h : wfWord w = true) :
    w ≠ [] ∧ ∀ c ∈ w, pyWs c = false ∧ (c == ':') = false := by
  unfold wfWord at h
  simp only [Bool.and_eq_true, Bool.not_eq_true', List.all_eq_true] at h
  obtain ⟨hne, hall⟩ := h
  constructor
  · intro hnil
    rw [hnil] at hne
    exact absurd hne (by decide)
  · intro c hc
    have := hall c hc
    simp only [Bool.and_eq_true, Bool.not_eq_true'] at this
    exact this

/-- A successful literal match splits the input. -/
theorem afterLit_decomp : ∀ (key cs r : List Char), afterLit key cs = some r → cs = key ++ r := by
  intro key
  induction key with
  | nil =>
    intro cs r h
    simp only [afterLit, Option.some_inj] at h
    rw [h]
    rfl
  | cons k ks ih =>
    intro cs r h
    cases cs with
    | nil => exact Option.noConfusion h
    | cons c cs2 =>
      unfold afterLit at h
      by_cases hk : k == c
      · rw [if_pos hk] at h
        rw [show k = c from beq_iff_eq.mp hk]
        simpa using ih cs2 r h
      · rw [if_neg hk] at h
        exact Option.noConfusion h

/-- A successful date match splits the input. -/
theorem dateChars_decomp : ∀ (cs d r : List Char), dateChars cs = some (d, r) → cs = d ++ r := by
  intro cs d r h
  rcases cs with _ | ⟨a, _ | ⟨b, _ | ⟨c, _ | ⟨d4, _ | ⟨s1, _ | ⟨e, _ | ⟨f, _ | ⟨s2, _ | ⟨g,
    _ | ⟨h2, rest⟩⟩⟩⟩⟩⟩⟩⟩⟩⟩ <;>
    simp only [dateChars] at h <;>
    try exact Option.noConfusion h
  split at h
  · injection h with h3
    injection h3 with hd hr
    rw [← hd, ← hr]
    rfl
  · exact Option.noConfusion h

/-- `grabWord` splits its input. -/
theorem grabWord_decomp : ∀ (l : List Char) (c : Char),
    c :: l = (grabWord c l).1 ++ (grabWord c l).2.2 := by
  intro l
  induction l with
  | nil => intro c; rfl
  | cons d ds ih =>
    intro c
    unfold grabWord
    by_cases hw : isWordChar d
    · rw [if_pos hw]
      simpa using ih d
    · rw [if_neg hw]
      rfl

/-- `recValSplit` splits its input. -/
theorem recValSplit_decomp : ∀ (cs v r : List Char), recValSplit cs = some (v, r) → cs = v ++ r := by
  intro cs v r h
  cases cs with
  | nil => exact Option.noConfusion h
  | cons c rest =>
    cases rest with
    | nil =>
      simp only [recValSplit] at h
      split_ifs at h <;>
        first
        | exact Option.noConfusion h
        | (injection h with h2
           injection h2 with hv hr
           rw [← hv, ← hr]
           rfl)
    | cons d ds =>
      simp only [recValSplit] at h
      split_ifs at h <;>
        first
        | exact Option.noConfusion h
        | (injection h with h2
           injection h2 with hv hr
           rw [← hv, ← hr]
           first
           | (have hg := grabWord_decomp ds d
              simp [← hg])
           | exact grabWord_decomp (d :: ds) c)

/-- The remainder of a dated-tag match is at most as long as the input tail. -/
theorem tagDateAfterWs_len {key : List Char} {c : Char} {cs rest : List Char}
    (hws : pyWs c = true) (h : tagDateAfterWs key (c :: cs) = some rest) :
    rest.length ≤ cs.length := by
  unfold tagDateAfterWs at h
  obtain ⟨r, ha, hf⟩ := Option.bind_eq_some.mp h
  obtain ⟨p, hd, hp⟩ := Option.map_eq_some'.mp hf
  obtain ⟨d, r2⟩ := p
  have hr : r = d ++ r2 := dateChars_decomp r d r2 hd
  have hsplit : (c :: cs).dropWhile pyWs = key ++ r := afterLit_decomp _ _ _ ha
  have hlen : ((c :: cs).dropWhile pyWs).length ≤ cs.length := by
    rw [List.dropWhile_cons_of_pos hws]
    exact (List.dropWhile_sublist pyWs).length_le
  rw [hsplit, hr] at hlen
  simp only [List.length_append] at hlen
  have hp2 : r2 = rest := hp
  rw [← hp2]
  omega

/-- The remainder of a recurrence-tag match is at most as long as the input
tail. -/
theorem recAfterWs_len {c : Char} {cs rest : List Char}
    (hws : pyWs c = true) (h : recAfterWs (c :: cs) = some rest) :
    rest.length ≤ cs.length := by
  unfold recAfterWs at h
  obtain ⟨r, ha, hf⟩ := Option.bind_eq_some.mp h
  obtain ⟨p, hv, hp⟩ := Option.map_eq_some'.mp hf
  obtain ⟨v, r2⟩ := p
  have hr : r = v ++ r2 := recValSplit_decomp r v r2 hv
  have hsplit : (c :: cs).dropWhile pyWs = ('r' :: 'e' :: 'c' :: ':' :: []) ++ r :=
    afterLit_decomp _ _ _ ha
  have hlen : ((c :: cs).dropWhile pyWs).length ≤ cs.length := by
    rw [List.dropWhile_cons_of_pos hws]
    exact (List.dropWhile_sublist pyWs).length_le
  rw [hsplit, hr] at hlen
  simp only [List.length_append] at hlen
  have hp2 : r2 = rest := hp
  rw [← hp2]
  omega

/-- `subTagDate` ignores the fuel as long as it covers the input length. -/
theorem subTagDate_fuel (key : List Char) :
    ∀ f g cs, cs.length ≤ f → cs.length ≤ g → subTagDate key f cs = subTagDate key g cs := by
  intro f
  induction f with
  | zero =>
    intro g cs hf _
    have : cs = [] := List.eq_nil_of_length_eq_zero (by omega)
    subst this
    cases g <;> rfl
  | succ f ih =>
    intro g cs hf hg
    cases cs with
    | nil => cases g <;> rfl
    | cons c cs2 =>
      cases g with
      | zero => simp at hg
      | succ g2 =>
        unfold subTagDate
        by_cases hws : pyWs c
        · rw [if_pos hws, if_pos hws]
          cases hm : tagDateAfterWs key (c :: cs2) with
          | none =>
            simp only [List.length_cons] at hf hg
            show c :: subTagDate key f cs2 = c :: subTagDate key g2 cs2
            rw [ih g2 cs2 (by omega) (by omega)]
          | some rest =>
            have hlen := tagDateAfterWs_len hws hm
            simp only [List.length_cons] at hf hg
            show subTagDate key f rest = subTagDate key g2 rest
            rw [ih g2 rest (by omega) (by omega)]
        · rw [if_neg hws, if_neg hws]
          simp only [List.length_cons] at hf hg
          rw [ih g2 cs2 (by omega) (by omega)]

/-- `subRecTag` ignores the fuel as long as it covers the input length. -/
theorem subRecTag_fuel :
    ∀ f g cs, cs.length ≤ f → cs.length ≤ g → subRecTag f cs = subRecTag g cs := by
  intro f
  induction f with
  | zero =>
    intro g cs hf _
    have : cs = [] := List.eq_nil_of_length_eq_zero (by omega)
    subst this
    cases g <;> rfl
  | succ f ih =>
    intro g cs hf hg
    cases cs with
    | nil => cases g <;> rfl
    | cons c cs2 =>
      cases g with
      | zero => simp at hg
      | succ g2 =>
        unfold subRecTag
        by_cases hws : pyWs c
        · rw [if_pos hws, if_pos hws]
          cases hm : recAfterWs (c :: cs2) with
          | none =>
            simp only [List.length_cons] at hf hg
            show c :: subRecTag f cs2 = c :: subRecTag g2 cs2
            rw [ih g2 cs2 (by omega) (by omega)]
          | some rest =>
            have hlen := recAfterWs_len hws hm
            simp only [List.length_cons] at hf hg
            show subRecTag f rest = subRecTag g2 rest
            rw [ih g2 rest (by omega) (by omega)]
        · rw [if_neg hws, if_neg hws]
          simp only [List.length_cons] at hf hg
          rw [ih g2 cs2 (by omega) (by omega)]



/-- `clean_description` through the canonical-fuel wrappers. -/
theorem clean_description_eq (cs : List Char) :
    clean_description cs =
      pyStrip (subRecF (subTagF ('t' :: ':' :: [])
        (subTagF ('d' :: 'u' :: 'e' :: ':' :: []) (dropPrioHead (dropXHead cs))))) := rfl

/-- The dated-tag pass copies a non-whitespace head character. -/
theorem subTagF_cons_nonws {key : List Char} {c : Char} (cs : List Char) (h : pyWs c = false) :
    subTagF key (c :: cs) = c :: subTagF key cs := by
  show subTagDate key (cs.length + 1) (c :: cs) = c :: subTagDate key cs.length cs
  conv_lhs => rw [subTagDate]
  rw [if_neg (by rw [h]; exact Bool.false_ne_true)]

/-- The dated-tag pass copies a whitespace character when no match starts
there. -/
theorem subTagF_cons_ws_none {key : List Char} {c : Char} (cs : List Char)
    (hws : pyWs c = true) (hm : tagDateAfterWs key (c :: cs) = none) :
    subTagF key (c :: cs) = c :: subTagF key cs := by
  show subTagDate key (cs.length + 1) (c :: cs) = c :: subTagDate key cs.length cs
  conv_lhs => rw [subTagDate]
  rw [if_pos hws, hm]

/-- The dated-tag pass removes a matched region. -/
theorem subTagF_cons_ws_some {key : List Char} {c : Char} (cs rest : List Char)
    (hws : pyWs c = true) (hm : tagDateAfterWs key (c :: cs) = some rest) :
    subTagF key (c :: cs) = subTagF key rest := by
  show subTagDate key (cs.length + 1) (c :: cs) = subTagDate key rest.length rest
  conv_lhs => rw [subTagDate]
  rw [if_pos hws, hm]
  show subTagDate key cs.length rest = subTagDate key rest.length rest
  exact subTagDate_fuel key cs.length rest.length rest (tagDateAfterWs_len hws hm) le_rfl

/-- The recurrence pass copies a non-whitespace head character. -/
theorem subRecF_cons_nonws {c : Char} (cs : List Char) (h : pyWs c = false) :
    subRecF (c :: cs) = c :: subRecF cs := by
  show subRecTag (cs.length + 1) (c :: cs) = c :: subRecTag cs.length cs
  conv_lhs => rw [subRecTag]
  rw [if_neg (by rw [h]; exact Bool.false_ne_true)]

/-- The recurrence pass copies a whitespace character when no match starts
there. -/
theorem subRecF_cons_ws_none {c : Char} (cs : List Char)
    (hws : pyWs c = true) (hm : recAfterWs (c :: cs) = none) :
    subRecF (c :: cs) = c :: subRecF cs := by
  show subRecTag (cs.length + 1) (c :: cs) = c :: subRecTag cs.length cs
  conv_lhs => rw [subRecTag]
  rw [if_pos hws, hm]

/-- The recurrence pass removes a matched region. -/
theorem subRecF_cons_ws_some {c : Char} (cs rest : List Char)
    (hws : pyWs c = true) (hm : recAfterWs (c :: cs) = some rest) :
    subRecF (c :: cs) = subRecF rest := by
  show subRecTag (cs.length + 1) (c :: cs) = subRecTag rest.length rest
  conv_lhs => rw [subRecTag]
  rw [if_pos hws, hm]
  show subRecTag cs.length rest = subRecTag rest.length rest
  exact subRecTag_fuel cs.length rest.length rest (recAfterWs_len hws hm) le_rfl

/-- The dated-tag pass copies any block of non-whitespace characters. -/
theorem subTagF_append {key : List Char} :
    ∀ u v, (∀ c ∈ u, pyWs c = false) → subTagF key (u ++ v) = u ++ subTagF key v := by
  intro u
  induction u with
  | nil => intro v _; rfl
  | cons c u2 ih =>
    intro v h
    have hc : pyWs c = false := h c (List.mem_cons_self c u2)
    rw [List.cons_append, subTagF_cons_nonws _ hc, ih v (fun x hx => h x (List.mem_cons_of_mem c hx))]
    rfl

/-- The recurrence pass copies any block of non-whitespace characters. -/
theorem subRecF_append :
    ∀ u v, (∀ c ∈ u, pyWs c = false) → subRecF (u ++ v) = u ++ subRecF v := by
  intro u
  induction u with
  | nil => intro v _; rfl
  | cons c u2 ih =>
    intro v h
    have hc : pyWs c = false := h c (List.mem_cons_self c u2)
    rw [List.cons_append, subRecF_cons_nonws _ hc, ih v (fun x hx => h x (List.mem_cons_of_mem c hx))]
    rfl

/-- A word character is not a plus sign. -/
theorem word_not_plus {c : Char} (h : isWordChar c = true) : (c == '+') = false := by
  cases hc : c == '+'
  · rfl
  · rw [show c = '+' from beq_iff_eq.mp hc] at h
    exact absurd h (by decide)

/-- A colon-bearing, whitespace-free literal never matches across the
boundary between a colon-free word and a space (or the end of input). -/
theorem afterLit_none_sep (w : List Char) : ∀ (key rest : List Char),
    ':' ∈ key → (∀ c ∈ key, pyWs c = false) →
    (∀ c ∈ w, (c == ':') = false) →
    (rest = [] ∨ ∃ r, rest = ' ' :: r) →
    afterLit key (w ++ rest) = none := by
  induction w with
  | nil =>
    intro key rest hk1 hk2 _ hz
    cases key with
    | nil => exact absurd hk1 (List.not_mem_nil ':')
    | cons k ks =>
      rcases hz with hz | ⟨r, hz⟩
      · rw [hz]
        rfl
      · rw [hz]
        show afterLit (k :: ks) (' ' :: r) = none
        unfold afterLit
        rw [if_neg ?_]
        intro hke
        have hke2 : k = ' ' := beq_iff_eq.mp hke
        have h2 := hk2 k (List.mem_cons_self k ks)
        rw [hke2] at h2
        exact absurd h2 (by decide)
  | cons c w2 ih =>
    intro key rest hk1 hk2 hw hz
    cases key with
    | nil => exact absurd hk1 (List.not_mem_nil ':')
    | cons k ks =>
      show afterLit (k :: ks) (c :: (w2 ++ rest)) = none
      unfold afterLit
      by_cases hke : k == c
      · rw [if_pos hke]
        have hkc : k = c := beq_iff_eq.mp hke
        have hk3 : ':' ∈ ks := by
          rcases List.mem_cons.mp hk1 with hk | hk
          · exfalso
            have := hw c (List.mem_cons_self c w2)
            rw [← hkc, ← hk] at this
            simp at this
          · exact hk
        exact ih ks rest hk3 (fun x hx => hk2 x (List.mem_cons_of_mem k hx))
          (fun x hx => hw x (List.mem_cons_of_mem c hx)) hz
      · rw [if_neg hke]

/-- `grabWord` consumes exactly a run of word characters up to a non-word
boundary. -/
theorem grabWord_exact (w : List Char) : ∀ (z : List Char) (d : Char),
    (∀ c ∈ w, isWordChar c = true) →
    (z = [] ∨ ∃ c2 r2, z = c2 :: r2 ∧ isWordChar c2 = false) →
    ∃ lc, grabWord d (w ++ z) = (d :: w, lc, z) := by
  induction w with
  | nil =>
    intro z d _ hz
    rcases hz with hz | ⟨c2, r2, hz, hc2⟩
    · rw [hz]
      exact ⟨d, rfl⟩
    · rw [hz]
      refine ⟨d, ?_⟩
      show grabWord d (c2 :: r2) = (d :: [], d, c2 :: r2)
      unfold grabWord
      rw [if_neg (by rw [hc2]; exact Bool.false_ne_true)]
  | cons a w2 ih =>
    intro z d hw hz
    have ha : isWordChar a = true := hw a (List.mem_cons_self a w2)
    obtain ⟨lc, hg⟩ := ih z a (fun x hx => hw x (List.mem_cons_of_mem a hx)) hz
    refine ⟨lc, ?_⟩
    show grabWord d (a :: (w2 ++ z)) = (d :: a :: w2, lc, z)
    unfold grabWord
    rw [if_pos ha, hg]

/-- `recValSplit` consumes exactly a well-formed value up to a non-word
boundary. -/
theorem recValSplit_exact {v : List Char} (z : List Char) (hv : wfRecVal v = true)
    (hz : z = [] ∨ ∃ c2 r2, z = c2 :: r2 ∧ isWordChar c2 = false) :
    recValSplit (v ++ z) = some (v, z) := by
  cases v with
  | nil => exact absurd hv (by decide)
  | cons c0 r =>
    simp only [wfRecVal] at hv
    by_cases hp : c0 == '+'
    · rw [if_pos hp] at hv
      simp only [Bool.and_eq_true, Bool.not_eq_true', List.all_eq_true] at hv
      obtain ⟨hne, hall⟩ := hv
      cases r with
      | nil => simp at hne
      | cons d1 r1 =>
        have hd1 : isWordChar d1 = true := hall d1 (List.mem_cons_self d1 r1)
        obtain ⟨lc, hg⟩ := grabWord_exact r1 z d1 (fun x hx => hall x (List.mem_cons_of_mem d1 hx)) hz
        show recValSplit (c0 :: d1 :: (r1 ++ z)) = some (c0 :: d1 :: r1, z)
        simp only [recValSplit]
        rw [if_pos hp, if_pos hd1, hg]
    · rw [if_neg hp] at hv
      simp only [Bool.and_eq_true, List.all_eq_true] at hv
      obtain ⟨hc0, hall⟩ := hv
      cases r with
      | nil =>
        rcases hz with hz | ⟨c2, r2, hz, hc2⟩
        · rw [hz]
          show recValSplit (c0 :: []) = some ([c0], [])
          simp only [recValSplit]
          rw [if_neg hp, if_pos hc0]
        · rw [hz]
          show recValSplit (c0 :: c2 :: r2) = some ([c0], c2 :: r2)
          simp only [recValSplit]
          rw [if_neg hp, if_pos hc0]
          have : grabWord c0 (c2 :: r2) = ([c0], c0, c2 :: r2) := by
            simp only [grabWord]
            rw [if_neg (by rw [hc2]; exact Bool.false_ne_true)]
          rw [this]
      | cons d1 r1 =>
        have hd1 : isWordChar d1 = true := hall d1 (List.mem_cons_self d1 r1)
        obtain ⟨lc, hg⟩ := grabWord_exact r1 z d1 (fun x hx => hall x (List.mem_cons_of_mem d1 hx)) hz
        have hg2 : grabWord c0 ((d1 :: r1) ++ z) = (c0 :: d1 :: r1, lc, z) := by
          show grabWord c0 (d1 :: (r1 ++ z)) = (c0 :: d1 :: r1, lc, z)
          simp only [grabWord]
          rw [if_pos hd1, hg]
        show recValSplit (c0 :: d1 :: (r1 ++ z)) = some (c0 :: d1 :: r1, z)
        simp only [recValSplit]
        rw [if_neg hp, if_pos hc0]
        have hg3 : grabWord c0 (d1 :: (r1 ++ z)) = (c0 :: d1 :: r1, lc, z) := hg2
        rw [hg3]

/-- Every character of a well-formed recurrence value is a plus or a word
character, hence neither whitespace nor colon. -/
theorem wfRecVal_chars {v : List Char} (h : wfRecVal v = true) :
    ∀ c ∈ v, pyWs c = false ∧ (c == ':') = false := by
  cases v with
  | nil => exact absurd h (by decide)
  | cons c0 r =>
    simp only [wfRecVal] at h
    by_cases hp : c0 == '+'
    · rw [if_pos hp] at h
      simp only [Bool.and_eq_true, List.all_eq_true] at h
      intro c hc
      rcases List.mem_cons.mp hc with hc | hc
      · rw [hc, show c0 = '+' from beq_iff_eq.mp hp]
        exact ⟨rfl, rfl⟩
      · have := h.2 c hc
        exact ⟨word_not_ws this, word_not_colon this⟩
    · rw [if_neg hp] at h
      simp only [Bool.and_eq_true, List.all_eq_true] at h
      intro c hc
      rcases List.mem_cons.mp hc with hc | hc
      · rw [hc]
        exact ⟨word_not_ws h.1, word_not_colon h.1⟩
      · have := h.2 c hc
        exact ⟨word_not_ws this, word_not_colon this⟩

/-- No character a well-formed token renders is whitespace. -/
theorem tokChars_not_ws {t : Tok} (h : wfTok t = true) :
    ∀ c ∈ tokChars t, pyWs c = false := by
  cases t with
  | word w =>
    intro c hc
    exact ((wfWord_parts h).2 c hc).1
  | due d =>
    intro c hc
    simp only [tokChars, List.mem_cons] at hc
    rcases hc with hc | hc | hc | hc | hc
    · rw [hc]; rfl
    · rw [hc]; rfl
    · rw [hc]; rfl
    · rw [hc]; rfl
    · exact (isDate10_chars h c hc).1
  | thr d =>
    intro c hc
    simp only [tokChars, List.mem_cons] at hc
    rcases hc with hc | hc | hc
    · rw [hc]; rfl
    · rw [hc]; rfl
    · exact (isDate10_chars h c hc).1
  | recur v =>
    intro c hc
    simp only [tokChars, List.mem_cons] at hc
    rcases hc with hc | hc | hc | hc | hc
    · rw [hc]; rfl
    · rw [hc]; rfl
    · rw [hc]; rfl
    · rw [hc]; rfl
    · exact (wfRecVal_chars h c hc).1

/-- The last entry of a list is a member. -/
theorem mem_of_getLast (l : List Char) : ∀ c, l.getLast? = some c → c ∈ l := by
  induction l with
  | nil => intro c h; exact Option.noConfusion h
  | cons a l2 ih =>
    intro c h
    cases l2 with
    | nil =>
      simp only [List.getLast?_singleton, Option.some_inj] at h
      rw [h]
      exact List.mem_cons_self c []
    | cons b l3 =>
      rw [List.getLast?_cons_cons] at h
      exact List.mem_cons_of_mem a (ih c h)

/-- A non-empty list has a last entry. -/
theorem getLast_of_ne_nil (l : List Char) (h : l ≠ []) : ∃ c, l.getLast? = some c := by
  induction l with
  | nil => exact absurd rfl h
  | cons a l2 ih =>
    cases l2 with
    | nil => exact ⟨a, rfl⟩
    | cons b l3 =>
      obtain ⟨c, hc⟩ := ih (by simp)
      exact ⟨c, by rw [List.getLast?_cons_cons]; exact hc⟩

/-- Dropping the head of a list with a non-empty tail keeps the last entry. -/
theorem getLast_cons_ne (a : Char) (l : List Char) (h : l ≠ []) :
    (a :: l).getLast? = l.getLast? := by
  cases l with
  | nil => exact absurd rfl h
  | cons b l2 => exact List.getLast?_cons_cons

/-- A well-formed token renders to a non-empty block ending in a
non-whitespace character. -/
theorem tokChars_last {t : Tok} (h : wfTok t = true) :
    tokChars t ≠ [] ∧ ∃ c, (tokChars t).getLast? = some c ∧ pyWs c = false := by
  have hne : tokChars t ≠ [] := by
    cases t with
    | word w => exact (wfWord_parts h).1
    | due d => simp [tokChars]
    | thr d => simp [tokChars]
    | recur v => simp [tokChars]
  refine ⟨hne, ?_⟩
  obtain ⟨c, hc⟩ := getLast_of_ne_nil _ hne
  exact ⟨c, hc, tokChars_not_ws h c (mem_of_getLast _ c hc)⟩

/-- The tail rendering is empty or starts with a space. -/
theorem renderTail_shape (ts : List Tok) :
    renderTail ts = [] ∨ ∃ r, renderTail ts = ' ' :: r := by
  cases ts with
  | nil => exact Or.inl rfl
  | cons t ts2 => exact Or.inr ⟨tokChars t ++ renderTail ts2, rfl⟩

/-- At a token gap, the due pass matches exactly a whole due tag. -/
theorem tagGap_due {d : List Char} (hd : isDate10 d = true) (z : List Char) :
    tagDateAfterWs ('d' :: 'u' :: 'e' :: ':' :: []) (' ' :: (tokChars (Tok.due d) ++ z))
      = some z := by
  have h1 : (' ' :: (tokChars (Tok.due d) ++ z)).dropWhile pyWs
      = 'd' :: 'u' :: 'e' :: ':' :: (d ++ z) := rfl
  unfold tagDateAfterWs
  rw [h1]
  have h2 : afterLit ('d' :: 'u' :: 'e' :: ':' :: []) ('d' :: 'u' :: 'e' :: ':' :: (d ++ z))
      = some (d ++ z) := rfl
  rw [h2, Option.some_bind, dateChars_append hd]
  rfl

/-- At a token gap, the threshold pass matches exactly a whole threshold
tag. -/
theorem tagGap_thr {d : List Char} (hd : isDate10 d = true) (z : List Char) :
    tagDateAfterWs ('t' :: ':' :: []) (' ' :: (tokChars (Tok.thr d) ++ z)) = some z := by
  have h1 : (' ' :: (tokChars (Tok.thr d) ++ z)).dropWhile pyWs = 't' :: ':' :: (d ++ z) := rfl
  unfold tagDateAfterWs
  rw [h1]
  have h2 : afterLit ('t' :: ':' :: []) ('t' :: ':' :: (d ++ z)) = some (d ++ z) := rfl
  rw [h2, Option.some_bind, dateChars_append hd]
  rfl

/-- At a token gap, the recurrence pass matches exactly a whole recurrence
tag. -/
theorem recGap_match {v : List Char} (hv : wfRecVal v = true) (z : List Char)
    (hz : z = [] ∨ ∃ c2 r2, z = c2 :: r2 ∧ isWordChar c2 = false) :
    recAfterWs (' ' :: (tokChars (Tok.recur v) ++ z)) = some z := by
  have h1 : (' ' :: (tokChars (Tok.recur v) ++ z)).dropWhile pyWs
      = 'r' :: 'e' :: 'c' :: ':' :: (v ++ z) := rfl
  unfold recAfterWs
  rw [h1]
  have h2 : afterLit ('r' :: 'e' :: 'c' :: ':' :: []) ('r' :: 'e' :: 'c' :: ':' :: (v ++ z))
      = some (v ++ z) := rfl
  rw [h2, Option.some_bind, recValSplit_exact z hv hz]
  rfl

/-- At a token gap, a dated-tag pass never matches into a plain word. -/
theorem tagGap_word_none {key w z : List Char} (hk1 : ':' ∈ key)
    (hk2 : ∀ c ∈ key, pyWs c = false) (hw : wfWord w = true)
    (hz : z = [] ∨ ∃ r, z = ' ' :: r) :
    tagDateAfterWs key (' ' :: (w ++ z)) = none := by
  obtain ⟨hne, hall⟩ := wfWord_parts hw
  cases w with
  | nil => exact absurd rfl hne
  | cons c0 w2 =>
    have hc0 : pyWs c0 = false := (hall c0 (List.mem_cons_self c0 w2)).1
    have h1 : (' ' :: ((c0 :: w2) ++ z)).dropWhile pyWs = (c0 :: w2) ++ z := by
      show List.dropWhile pyWs (' ' :: (c0 :: (w2 ++ z))) = c0 :: (w2 ++ z)
      rw [List.dropWhile_cons_of_pos (show pyWs ' ' = true from rfl),
        List.dropWhile_cons_of_neg (by rw [hc0]; exact Bool.false_ne_true)]
    unfold tagDateAfterWs
    rw [h1, afterLit_none_sep (c0 :: w2) key z hk1 hk2 (fun c hc => (hall c hc).2) hz]
    rfl

/-- At a token gap, the recurrence pass never matches into a plain word. -/
theorem recGap_word_none {w z : List Char} (hw : wfWord w = true)
    (hz : z = [] ∨ ∃ r, z = ' ' :: r) :
    recAfterWs (' ' :: (w ++ z)) = none := by
  obtain ⟨hne, hall⟩ := wfWord_parts hw
  cases w with
  | nil => exact absurd rfl hne
  | cons c0 w2 =>
    have hc0 : pyWs c0 = false := (hall c0 (List.mem_cons_self c0 w2)).1
    have h1 : (' ' :: ((c0 :: w2) ++ z)).dropWhile pyWs = (c0 :: w2) ++ z := by
      show List.dropWhile pyWs (' ' :: (c0 :: (w2 ++ z))) = c0 :: (w2 ++ z)
      rw [List.dropWhile_cons_of_pos (show pyWs ' ' = true from rfl),
        List.dropWhile_cons_of_neg (by rw [hc0]; exact Bool.false_ne_true)]
    unfold recAfterWs
    rw [h1, afterLit_none_sep (c0 :: w2) ('r' :: 'e' :: 'c' :: ':' :: []) z (by decide)
      (by decide) (fun c hc => (hall c hc).2) hz]
    rfl

/-- The due pass on a token tail removes exactly the due tags. -/
theorem subTagF_renderTail_due : ∀ ts : List Tok, (∀ t ∈ ts, wfTok t = true) →
    subTagF ('d' :: 'u' :: 'e' :: ':' :: []) (renderTail ts)
      = renderTail (ts.filter (fun t => !isDueTok t)) := by
  intro ts
  induction ts with
  | nil => intro _; rfl
  | cons t ts2 ih =>
    intro h
    have ht : wfTok t = true := h t (List.mem_cons_self t ts2)
    have hts2 : ∀ x ∈ ts2, wfTok x = true := fun x hx => h x (List.mem_cons_of_mem t hx)
    show subTagF ('d' :: 'u' :: 'e' :: ':' :: []) (' ' :: (tokChars t ++ renderTail ts2)) = _
    cases t with
    | due d =>
      rw [subTagF_cons_ws_some (tokChars (Tok.due d) ++ renderTail ts2) (renderTail ts2)
        (show pyWs ' ' = true from rfl) (tagGap_due ht (renderTail ts2)), ih hts2]
      simp [List.filter_cons, isDueTok]
    | word w =>
      show subTagF ('d' :: 'u' :: 'e' :: ':' :: []) (' ' :: (w ++ renderTail ts2)) = _
      rw [subTagF_cons_ws_none (w ++ renderTail ts2) (show pyWs ' ' = true from rfl)
        (tagGap_word_none (by decide) (by decide) ht (renderTail_shape ts2))]
      rw [subTagF_append w _ (fun c hc => tokChars_not_ws ht c hc), ih hts2]
      simp [List.filter_cons, isDueTok, renderTail, tokChars]
    | thr d =>
      rw [subTagF_cons_ws_none (tokChars (Tok.thr d) ++ renderTail ts2)
        (show pyWs ' ' = true from rfl)
        (show tagDateAfterWs ('d' :: 'u' :: 'e' :: ':' :: [])
          (' ' :: (tokChars (Tok.thr d) ++ renderTail ts2)) = none from rfl)]
      rw [subTagF_append _ _ (tokChars_not_ws ht), ih hts2]
      simp [List.filter_cons, isDueTok, renderTail]
    | recur v =>
      rw [subTagF_cons_ws_none (tokChars (Tok.recur v) ++ renderTail ts2)
        (show pyWs ' ' = true from rfl)
        (show tagDateAfterWs ('d' :: 'u' :: 'e' :: ':' :: [])
          (' ' :: (tokChars (Tok.recur v) ++ renderTail ts2)) = none from rfl)]
      rw [subTagF_append _ _ (tokChars_not_ws ht), ih hts2]
      simp [List.filter_cons, isDueTok, renderTail]

/-- The threshold pass on a token tail removes exactly the threshold tags. -/
theorem subTagF_renderTail_thr : ∀ ts : List Tok, (∀ t ∈ ts, wfTok t = true) →
    subTagF ('t' :: ':' :: []) (renderTail ts)
      = renderTail (ts.filter (fun t => !isThrTok t)) := by
  intro ts
  induction ts with
  | nil => intro _; rfl
  | cons t ts2 ih =>
    intro h
    have ht : wfTok t = true := h t (List.mem_cons_self t ts2)
    have hts2 : ∀ x ∈ ts2, wfTok x = true := fun x hx => h x (List.mem_cons_of_mem t hx)
    show subTagF ('t' :: ':' :: []) (' ' :: (tokChars t ++ renderTail ts2)) = _
    cases t with
    | thr d =>
      rw [subTagF_cons_ws_some (tokChars (Tok.thr d) ++ renderTail ts2) (renderTail ts2)
        (show pyWs ' ' = true from rfl) (tagGap_thr ht (renderTail ts2)), ih hts2]
      simp [List.filter_cons, isThrTok]
    | word w =>
      show subTagF ('t' :: ':' :: []) (' ' :: (w ++ renderTail ts2)) = _
      rw [subTagF_cons_ws_none (w ++ renderTail ts2) (show pyWs ' ' = true from rfl)
        (tagGap_word_none (by decide) (by decide) ht (renderTail_shape ts2))]
      rw [subTagF_append w _ (fun c hc => tokChars_not_ws ht c hc), ih hts2]
      simp [List.filter_cons, isThrTok, renderTail, tokChars]
    | due d =>
      rw [subTagF_cons_ws_none (tokChars (Tok.due d) ++ renderTail ts2)
        (show pyWs ' ' = true from rfl)
        (show tagDateAfterWs ('t' :: ':' :: [])
          (' ' :: (tokChars (Tok.due d) ++ renderTail ts2)) = none from rfl)]
      rw [subTagF_append _ _ (tokChars_not_ws ht), ih hts2]
      simp [List.filter_cons, isThrTok, renderTail]
    | recur v =>
      rw [subTagF_cons_ws_none (tokChars (Tok.recur v) ++ renderTail ts2)
        (show pyWs ' ' = true from rfl)
        (show tagDateAfterWs ('t' :: ':' :: [])
          (' ' :: (tokChars (Tok.recur v) ++ renderTail ts2)) = none from rfl)]
      rw [subTagF_append _ _ (tokChars_not_ws ht), ih hts2]
      simp [List.filter_cons, isThrTok, renderTail]

/-- The recurrence pass on a token tail removes exactly the recurrence
tags. -/
theorem subRecF_renderTail : ∀ ts : List Tok, (∀ t ∈ ts, wfTok t = true) →
    subRecF (renderTail ts) = renderTail (ts.filter (fun t => !isRecTok t)) := by
  intro ts
  induction ts with
  | nil => intro _; rfl
  | cons t ts2 ih =>
    intro h
    have ht : wfTok t = true := h t (List.mem_cons_self t ts2)
    have hts2 : ∀ x ∈ ts2, wfTok x = true := fun x hx => h x (List.mem_cons_of_mem t hx)
    show subRecF (' ' :: (tokChars t ++ renderTail ts2)) = _
    cases t with
    | recur v =>
      have hz : renderTail ts2 = [] ∨
          ∃ c2 r2, renderTail ts2 = c2 :: r2 ∧ isWordChar c2 = false := by
        rcases renderTail_shape ts2 with hsh | ⟨r, hsh⟩
        · exact Or.inl hsh
        · exact Or.inr ⟨' ', r, hsh, rfl⟩
      rw [subRecF_cons_ws_some (tokChars (Tok.recur v) ++ renderTail ts2) (renderTail ts2)
        (show pyWs ' ' = true from rfl) (recGap_match ht (renderTail ts2) hz), ih hts2]
      simp [List.filter_cons, isRecTok]
    | word w =>
      show subRecF (' ' :: (w ++ renderTail ts2)) = _
      rw [subRecF_cons_ws_none (w ++ renderTail ts2) (show pyWs ' ' = true from rfl)
        (recGap_word_none ht (renderTail_shape ts2))]
      rw [subRecF_append w _ (fun c hc => tokChars_not_ws ht c hc), ih hts2]
      simp [List.filter_cons, isRecTok, renderTail, tokChars]
    | due d =>
      rw [subRecF_cons_ws_none (tokChars (Tok.due d) ++ renderTail ts2)
        (show pyWs ' ' = true from rfl)
        (show recAfterWs (' ' :: (tokChars (Tok.due d) ++ renderTail ts2)) = none from rfl)]
      rw [subRecF_append _ _ (tokChars_not_ws ht), ih hts2]
      simp [List.filter_cons, isRecTok, renderTail]
    | thr d =>
      rw [subRecF_cons_ws_none (tokChars (Tok.thr d) ++ renderTail ts2)
        (show pyWs ' ' = true from rfl)
        (show recAfterWs (' ' :: (tokChars (Tok.thr d) ++ renderTail ts2)) = none from rfl)]
      rw [subRecF_append _ _ (tokChars_not_ws ht), ih hts2]
      simp [List.filter_cons, isRecTok, renderTail]

/-- Stripping is the identity on a line with non-whitespace ends. -/
theorem pyStrip_noop (l : List Char)
    (h1 : ∀ c, l.head? = some c → pyWs c = false)
    (h2 : ∀ c, l.getLast? = some c → pyWs c = false) : pyStrip l = l := by
  unfold pyStrip
  have hd : l.dropWhile pyWs = l := by
    cases l with
    | nil => rfl
    | cons c l2 =>
      rw [List.dropWhile_cons_of_neg (by rw [h1 c rfl]; exact Bool.false_ne_true)]
  rw [hd]
  have hr : l.reverse.dropWhile pyWs = l.reverse := by
    cases hrev : l.reverse with
    | nil => rfl
    | cons c l2 =>
      have hc : l.getLast? = some c := by
        rw [← List.head?_reverse, hrev]
        rfl
      rw [List.dropWhile_cons_of_neg (by rw [h2 c hc]; exact Bool.false_ne_true)]
  rw [hr, List.reverse_reverse]

/-- Appending well-formed tokens keeps a non-whitespace last character. -/
theorem renderTail_last : ∀ ts : List Tok, (∀ t ∈ ts, wfTok t = true) →
    ∀ u : List Char, u ≠ [] → (∃ c, u.getLast? = some c ∧ pyWs c = false) →
    ∃ c, (u ++ renderTail ts).getLast? = some c ∧ pyWs c = false := by
  intro ts
  induction ts with
  | nil =>
    intro _ u _ hu
    show ∃ c, (u ++ []).getLast? = some c ∧ pyWs c = false
    rw [List.append_nil]
    exact hu
  | cons t ts2 ih =>
    intro h u hu _
    have ht : wfTok t = true := h t (List.mem_cons_self t ts2)
    have hts2 : ∀ x ∈ ts2, wfTok x = true := fun x hx => h x (List.mem_cons_of_mem t hx)
    obtain ⟨htne, c, hc, hcw⟩ := tokChars_last ht
    have hassoc : u ++ renderTail (t :: ts2) = (u ++ (' ' :: tokChars t)) ++ renderTail ts2 := by
      show u ++ (' ' :: (tokChars t ++ renderTail ts2)) = _
      simp [List.append_assoc]
    rw [hassoc]
    apply ih hts2 (u ++ (' ' :: tokChars t)) (by simp)
    refine ⟨c, ?_, hcw⟩
    rw [List.getLast?_append, getLast_cons_ne _ _ htne, hc]
    rfl

/-- A tail of well-formed plain words renders with no colon. -/
theorem renderTail_no_colon : ∀ ts : List Tok,
    (∀ t ∈ ts, wfTok t = true ∧ isDueTok t = false ∧ isThrTok t = false ∧ isRecTok t = false) →
    ∀ c ∈ renderTail ts, (c == ':') = false := by
  intro ts
  induction ts with
  | nil => intro _ c hc; exact absurd hc (List.not_mem_nil c)
  | cons t ts2 ih =>
    intro h c hc
    obtain ⟨hwf, hd, hth, hr⟩ := h t (List.mem_cons_self t ts2)
    cases t with
    | due d => exact absurd hd (by simp [isDueTok])
    | thr d => exact absurd hth (by simp [isThrTok])
    | recur v => exact absurd hr (by simp [isRecTok])
    | word w =>
      have hc2 : c ∈ ' ' :: (w ++ renderTail ts2) := hc
      rcases List.mem_cons.mp hc2 with hc3 | hc3
      · rw [hc3]
        rfl
      · rcases List.mem_append.mp hc3 with hc4 | hc4
        · exact ((wfWord_parts hwf).2 c hc4).2
        · exact ih (fun x hx => h x (List.mem_cons_of_mem _ hx)) c hc4

/-- Matching a leading segment only uses characters of the input. -/
theorem startsWithL_mem : ∀ (pat s : List Char), startsWithL pat s = true → ∀ c ∈ pat, c ∈ s := by
  intro pat
  induction pat with
  | nil => intro s _ c hc; exact absurd hc (List.not_mem_nil c)
  | cons p ps ih =>
    intro s h c hc
    cases s with
    | nil => exact absurd h (by simp [startsWithL])
    | cons a s2 =>
      simp only [startsWithL, Bool.and_eq_true] at h
      rcases List.mem_cons.mp hc with hc2 | hc2
      · rw [hc2, ← show p = a from beq_iff_eq.mp h.1]
        exact List.mem_cons_self p s2
      · exact List.mem_cons_of_mem a (ih s2 h.2 c hc2)

/-- A colon-bearing pattern never occurs inside a colon-free line. -/
theorem hasSub_colon_false : ∀ (pat l : List Char), ':' ∈ pat →
    (∀ c ∈ l, (c == ':') = false) → hasSub pat l = false := by
  intro pat l
  induction l with
  | nil =>
    intro hp _
    cases pat with
    | nil => exact absurd hp (List.not_mem_nil ':')
    | cons p ps => rfl
  | cons c cs ih =>
    intro hp hl
    have h1 : startsWithL pat (c :: cs) = false := by
      cases hs : startsWithL pat (c :: cs)
      · rfl
      · have hmem := startsWithL_mem pat (c :: cs) hs ':' hp
        have h2 := hl ':' hmem
        simp at h2
    have h2 : hasSub pat cs = false := ih hp (fun x hx => hl x (List.mem_cons_of_mem c hx))
    show (startsWithL pat (c :: cs) || hasSub pat cs) = false
    rw [h1, h2]
    rfl

/-- The completion-prefix pass leaves a line headed by a word other than
`x` unchanged. -/
theorem dropXHead_noop {w0 : List Char} (z : List Char) (hw : wfWord w0 = true)
    (hx : w0 ≠ ['x']) : dropXHead (w0 ++ z) = w0 ++ z := by
  obtain ⟨hne, hall⟩ := wfWord_parts hw
  cases w0 with
  | nil => exact absurd rfl hne
  | cons c0 w2 =>
    show dropXHead (c0 :: (w2 ++ z)) = c0 :: (w2 ++ z)
    simp only [dropXHead]
    by_cases hx0 : c0 == 'x'
    · rw [if_pos hx0]
      cases w2 with
      | nil => exact absurd (by rw [show c0 = 'x' from beq_iff_eq.mp hx0]) hx
      | cons c1 w3 =>
        have hc1 : pyWs c1 = false :=
          (hall c1 (List.mem_cons_of_mem c0 (List.mem_cons_self c1 w3))).1
        have htake : ((c1 :: w3 ++ z).takeWhile pyWs).isEmpty = true := by
          show ((c1 :: (w3 ++ z)).takeWhile pyWs).isEmpty = true
          rw [List.takeWhile_cons_of_neg (by rw [hc1]; exact Bool.false_ne_true)]
          rfl
        rw [if_pos htake]
    · rw [if_neg hx0]

/-- The priority-prefix pass leaves a line not headed by `(` unchanged. -/
theorem dropPrioHead_noop {w0 : List Char} (z : List Char) (hw : wfWord w0 = true)
    (hp : w0.head? ≠ some '(') : dropPrioHead (w0 ++ z) = w0 ++ z := by
  obtain ⟨hne, _⟩ := wfWord_parts hw
  cases w0 with
  | nil => exact absurd rfl hne
  | cons c0 w2 =>
    have hc0 : (c0 == '(') = false := by
      cases hEq : c0 == '('
      · rfl
      · exact absurd (by rw [show c0 = '(' from beq_iff_eq.mp hEq]; rfl) hp
    show dropPrioHead (c0 :: (w2 ++ z)) = c0 :: (w2 ++ z)
    rcases hw2 : w2 ++ z with _ | ⟨b, _ | ⟨c, rest⟩⟩
    · rfl
    · rfl
    · simp [dropPrioHead, hc0]

/-- C8 (amended): for every line built from a leading plain word (not `x`,
not starting with `(`) followed by space-separated well-formed tokens —
plain words or well-formed `due:`/`t:`/`rec:` tags — the `description`
field produced by `parse_line` contains none of the substrings `due:`,
`t:`, `rec:` (every pass removes exactly its whitespace-preceded tags and
what remains is colon-free). -/
theorem c8_description_amended (w0 : List Char) (ts : List Tok)
    (h1 : wfWord w0 = true) (h2 : w0 ≠ ['x']) (h3 : w0.head? ≠ some '(')
    (h4 : ts.all wfTok = true) :
    Option.all (fun t => !(hasSub ('d' :: 'u' :: 'e' :: ':' :: []) t.description.data) &&
        !(hasSub ('t' :: ':' :: []) t.description.data) &&
        !(hasSub ('r' :: 'e' :: 'c' :: ':' :: []) t.description.data))
      (parse_line (String.mk (renderLine w0 ts))) = true := by
  have hwf : ∀ t ∈ ts, wfTok t = true := by
    intro t ht
    exact List.all_eq_true.mp h4 t ht
  obtain ⟨hne0, hall0⟩ := wfWord_parts h1
  have hhead : ∀ c, (renderLine w0 ts).head? = some c → pyWs c = false := by
    cases w0 with
    | nil => exact absurd rfl hne0
    | cons c0 w2 =>
      intro c hc
      have : c = c0 := by
        have : (renderLine (c0 :: w2) ts).head? = some c0 := rfl
        rw [this] at hc
        exact (Option.some_inj.mp hc).symm
      rw [this]
      exact (hall0 c0 (List.mem_cons_self c0 w2)).1
  have hlast : ∃ c, (renderLine w0 ts).getLast? = some c ∧ pyWs c = false := by
    obtain ⟨c, hc⟩ := getLast_of_ne_nil w0 hne0
    exact renderTail_last ts hwf w0 hne0 ⟨c, hc, (hall0 c (mem_of_getLast w0 c hc)).1⟩
  have hstrip : pyStrip (renderLine w0 ts) = renderLine w0 ts := by
    refine pyStrip_noop _ hhead ?_
    intro c hc
    obtain ⟨c2, hc2, hw2⟩ := hlast
    rw [hc] at hc2
    rw [Option.some_inj.mp hc2]
    exact hw2
  -- the description after the five passes
  have hts1 : ∀ t ∈ ts.filter (fun t => !isDueTok t), wfTok t = true :=
    fun t ht => hwf t (List.mem_of_mem_filter ht)
  have hts2 : ∀ t ∈ (ts.filter (fun t => !isDueTok t)).filter (fun t => !isThrTok t),
      wfTok t = true := fun t ht => hts1 t (List.mem_of_mem_filter ht)
  have hts3 : ∀ t ∈ ((ts.filter (fun t => !isDueTok t)).filter
      (fun t => !isThrTok t)).filter (fun t => !isRecTok t), wfTok t = true :=
    fun t ht => hts2 t (List.mem_of_mem_filter ht)
  have hw0nws : ∀ c ∈ w0, pyWs c = false := fun c hc => (hall0 c hc).1
  have hdesc : clean_description (renderLine w0 ts)
      = w0 ++ renderTail (((ts.filter (fun t => !isDueTok t)).filter
          (fun t => !isThrTok t)).filter (fun t => !isRecTok t)) := by
    rw [clean_description_eq, show (renderLine w0 ts : List Char) = w0 ++ renderTail ts from rfl,
      dropXHead_noop _ h1 h2, dropPrioHead_noop _ h1 h3,
      subTagF_append w0 _ hw0nws, subTagF_renderTail_due ts hwf,
      subTagF_append w0 _ hw0nws, subTagF_renderTail_thr _ hts1,
      subRecF_append w0 _ hw0nws, subRecF_renderTail _ hts2]
    apply pyStrip_noop
    · cases w0 with
      | nil => exact absurd rfl hne0
      | cons c0 w2 =>
        intro c hc
        have hc2 : some c0 = some c := hc
        rw [← Option.some_inj.mp hc2]
        exact (hall0 c0 (List.mem_cons_self c0 w2)).1
    · intro c hc
      obtain ⟨c2, hc2, hw2⟩ := renderTail_last _ hts3 w0 hne0
        (by
          obtain ⟨c3, hc3⟩ := getLast_of_ne_nil w0 hne0
          exact ⟨c3, hc3, (hall0 c3 (mem_of_getLast w0 c3 hc3)).1⟩)
      rw [hc] at hc2
      rw [Option.some_inj.mp hc2]
      exact hw2
  have hnc : ∀ c ∈ clean_description (renderLine w0 ts), (c == ':') = false := by
    rw [hdesc]
    intro c hc
    rcases List.mem_append.mp hc with hc2 | hc2
    · exact (hall0 c hc2).2
    · refine renderTail_no_colon _ ?_ c hc2
      intro t ht
      have ht3 := List.mem_filter.mp ht
      have ht2 := List.mem_filter.mp ht3.1
      have ht1 := List.mem_filter.mp ht2.1
      refine ⟨hwf t ht1.1, ?_, ?_, ?_⟩
      · simpa using ht1.2
      · simpa using ht2.2
      · simpa using ht3.2
  -- evaluate parse_line
  have hstrip2 : pyStrip (String.mk (renderLine w0 ts)).data = renderLine w0 ts := hstrip
  unfold parse_line
  rw [hstrip2]
  have hnonempty : (renderLine w0 ts).isEmpty = false := by
    apply isEmpty_false_of_ne_nil
    cases w0 with
    | nil => exact absurd rfl hne0
    | cons c0 w2 => simp [renderLine]
  simp only []
  rw [if_neg (by rw [hnonempty]; exact Bool.false_ne_true)]
  show (!(hasSub ('d' :: 'u' :: 'e' :: ':' :: []) (clean_description (renderLine w0 ts))) &&
      !(hasSub ('t' :: ':' :: []) (clean_description (renderLine w0 ts))) &&
      !(hasSub ('r' :: 'e' :: 'c' :: ':' :: []) (clean_description (renderLine w0 ts)))) = true
  rw [hasSub_colon_false _ _ (by decide) hnc, hasSub_colon_false _ _ (by decide) hnc,
    hasSub_colon_false _ _ (by decide) hnc]
  rfl

/-- C8 (counterexample): on the line `t:2024-01-01` the description keeps
the tag — the stripping regexes demand whitespace before a tag, so a
line-initial tag survives and the claimed property fails as stated. -/
theorem c8_description_cex :
    (parse_line "t:2024-01-01").map (fun t => hasSub ('t' :: ':' :: []) t.description.data)
      = some true := rfl

/-- C8 witness: the amended statement evaluated on `pay due:2024-01-05
bills`. -/
theorem c8_description_wit :
    Option.all (fun t => !(hasSub ('d' :: 'u' :: 'e' :: ':' :: []) t.description.data) &&
        !(hasSub ('t' :: ':' :: []) t.description.data) &&
        !(hasSub ('r' :: 'e' :: 'c' :: ':' :: []) t.description.data))
      (parse_line (String.mk (renderLine ('p' :: 'a' :: 'y' :: [])
        (Tok.due ('2' :: '0' :: '2' :: '4' :: '-' :: '0' :: '1' :: '-' :: '0' :: '5' :: []) ::
         Tok.word ('b' :: 'i' :: 'l' :: 'l' :: 's' :: []) :: [])))) = true :=
  c8_description_amended ('p' :: 'a' :: 'y' :: [])
    (Tok.due ('2' :: '0' :: '2' :: '4' :: '-' :: '0' :: '1' :: '-' :: '0' :: '5' :: []) ::
     Tok.word ('b' :: 'i' :: 'l' :: 'l' :: 's' :: []) :: [])
    (by decide) (by decide) (by decide) (by decide)
